import Mathlib

/-!
# boltseq — a dual-index sequenced bucket, shallowly embedded

This file embeds the `boltseq` Go package: a bucket abstraction over an
ordered, transactional byte-key/byte-value store (bolt).  Every key written
into the bucket is assigned a monotonically increasing sequence number; the
entry is afterwards retrievable by key (the "data" collection) or by sequence
number (the "seq" collection), and entries can be traversed in insertion
order via a cursor.

The external store (bolt) is modelled as sorted association lists of
byte-string entries, each collection carrying the per-collection
auto-increment counter.  Machine 64-bit arithmetic is modelled on `Nat`
with explicit `% 2^64`.  Byte strings are `List (Fin 256)`.  Go `nil` byte
slices and empty byte slices compare equal under `bytes.Equal`, so both are
modelled as `[]`.  A Go nil-pointer dereference or an unpositioned-cursor
delete (both panics in the real store) are surfaced as the distinguished
error `Err.crash`.  Bolt's rejection of empty keys on `Bucket.Put`
(`ErrKeyRequired`) is modelled as `Err.keyRequired`; bolt's key/value size
limits are immaterial to the claims and omitted.
-/

namespace Boltseq

/-- A byte. -/
abbrev Byte := Fin 256

/-- A byte string (Go `[]byte`; `nil` and empty both modelled as `[]`). -/
abbrev Bytes := List Byte

/-- Truncate a natural number to a byte. -/
def byteOf (x : Nat) : Byte := ⟨x % 256, Nat.mod_lt x (by decide)⟩

/-- Strict byte-lexicographic order on byte strings (Go `bytes.Compare < 0`). -/
def blt : Bytes → Bytes → Bool
  | [], [] => false
  | [], _ :: _ => true
  | _ :: _, [] => false
  | a :: as, b :: bs => if a < b then true else if b < a then false else blt as bs

/-- Non-strict byte-lexicographic order. -/
def ble (a b : Bytes) : Bool := !(blt b a)

theorem blt_irrefl (a : Bytes) : blt a a = false := by
  induction a with
  | nil => rfl
  | cons x xs ih => simp [blt, ih]

theorem blt_asymm : ∀ {a b : Bytes}, blt a b = true → blt b a = false
  | [], [], h => by simp [blt] at h
  | [], _ :: _, _ => rfl
  | _ :: _, [], h => by simp [blt] at h
  | x :: xs, y :: ys, h => by
    simp only [blt] at h ⊢
    rcases lt_trichotomy x y with hxy | hxy | hxy
    · simp [hxy, not_lt.mpr (le_of_lt hxy)]
    · subst hxy
      simp only [lt_irrefl, if_false] at h ⊢
      exact blt_asymm h
    · simp [hxy, not_lt.mpr (le_of_lt hxy)] at h

theorem blt_trans : ∀ {a b c : Bytes},
    blt a b = true → blt b c = true → blt a c = true
  | [], _, _ :: _, _, _ => rfl
  | [], b, [], _, h2 => by cases b <;> simp [blt] at h2
  | _ :: _, [], _, h1, _ => by simp [blt] at h1
  | _ :: _, _ :: _, [], _, h2 => by simp [blt] at h2
  | x :: xs, y :: ys, z :: zs, h1, h2 => by
    simp only [blt] at h1 h2 ⊢
    rcases lt_trichotomy x y with hxy | hxy | hxy
    · rcases lt_trichotomy y z with hyz | hyz | hyz
      · simp [lt_trans hxy hyz]
      · subst hyz; simp [hxy]
      · simp [hyz, not_lt.mpr (le_of_lt hyz)] at h2
    · subst hxy
      rcases lt_trichotomy x z with hyz | hyz | hyz
      · simp [hyz]
      · subst hyz
        simp only [lt_irrefl, if_false] at h1 h2 ⊢
        exact blt_trans h1 h2
      · simp [hyz, not_lt.mpr (le_of_lt hyz)] at h2
    · simp [hxy, not_lt.mpr (le_of_lt hxy)] at h1

/-- Totality: two byte strings that are not strictly ordered either way are equal. -/
theorem blt_total : ∀ {a b : Bytes}, blt a b = false → blt b a = false → a = b
  | [], [], _, _ => rfl
  | [], _ :: _, h1, _ => by simp [blt] at h1
  | _ :: _, [], _, h2 => by simp [blt] at h2
  | x :: xs, y :: ys, h1, h2 => by
    simp only [blt] at h1 h2
    rcases lt_trichotomy x y with hxy | hxy | hxy
    · simp [hxy] at h1
    · subst hxy
      simp only [lt_irrefl, if_false] at h1 h2
      rw [blt_total h1 h2]
    · simp [hxy] at h2

theorem ble_refl (a : Bytes) : ble a a = true := by
  simp [ble, blt_irrefl]

theorem ble_of_blt {a b : Bytes} (h : blt a b = true) : ble a b = true := by
  simp [ble, blt_asymm h]

/-- Big-endian byte expansion: `beBytes k s` is the low `k` bytes of `s`,
most significant first.  `beBytes 8` is Go `binary.BigEndian.PutUint64`. -/
def beBytes : Nat → Nat → Bytes
  | 0, _ => []
  | k + 1, s => byteOf (s / 2 ^ (8 * k)) :: beBytes k s

/-- The 8-byte big-endian encoding of a sequence number
(`binary.BigEndian.PutUint64`). -/
def u64be (s : Nat) : Bytes := beBytes 8 s

/-- Big-endian decoding of a byte string's first 8 bytes
(Go `binary.BigEndian.Uint64(v[:8])`; the Go code only calls it after
checking `len(v) >= 8`). -/
def decodeSeq (b : Bytes) : Nat :=
  (b.take 8).foldl (fun acc x => acc * 256 + x.val) 0

theorem beBytes_length (k s : Nat) : (beBytes k s).length = k := by
  induction k generalizing s with
  | zero => rfl
  | succ k ih => simp [beBytes, ih]

private theorem foldl_beBytes (k : Nat) : ∀ (s acc : Nat),
    (beBytes k s).foldl (fun acc x => acc * 256 + x.val) acc
      = acc * 2 ^ (8 * k) + s % 2 ^ (8 * k) := by
  induction k with
  | zero => intro s acc; simp [beBytes, Nat.mod_one]
  | succ k ih =>
    intro s acc
    have hsplit : s / 2 ^ (8 * k) % 256 * 2 ^ (8 * k) + s % 2 ^ (8 * k)
        = s % 2 ^ (8 * (k + 1)) := by
      have h1 : s / 2 ^ (8 * k) % 256 = s % (2 ^ (8 * k) * 256) / 2 ^ (8 * k) :=
        (Nat.mod_mul_right_div_self s (2 ^ (8 * k)) 256).symm
      have h2 : s % 2 ^ (8 * k) = s % (2 ^ (8 * k) * 256) % 2 ^ (8 * k) :=
        (Nat.mod_mod_of_dvd s ⟨256, rfl⟩).symm
      have h3 : (2 : Nat) ^ (8 * (k + 1)) = 2 ^ (8 * k) * 256 := by
        rw [Nat.mul_succ, pow_add]; norm_num
      rw [h1, h2, h3, Nat.div_add_mod']
    calc (beBytes (k + 1) s).foldl (fun acc x => acc * 256 + x.val) acc
        = (beBytes k s).foldl (fun acc x => acc * 256 + x.val)
            (acc * 256 + s / 2 ^ (8 * k) % 256) := by
          simp [beBytes, byteOf]
      _ = (acc * 256 + s / 2 ^ (8 * k) % 256) * 2 ^ (8 * k) + s % 2 ^ (8 * k) :=
          ih s _
      _ = acc * 2 ^ (8 * (k + 1)) + s % 2 ^ (8 * (k + 1)) := by
          rw [← hsplit, show (256 : Nat) = 2 ^ 8 from rfl]
          ring

/-- Decoding a big-endian encoding recovers the value modulo `2^64`. -/
theorem decodeSeq_u64be (s : Nat) : decodeSeq (u64be s) = s % 2 ^ 64 := by
  have h : (u64be s).take 8 = u64be s := by
    apply List.take_of_length_le
    simp [u64be, beBytes_length]
  rw [decodeSeq, h, u64be, foldl_beBytes 8 s 0]
  norm_num

theorem u64be_length (s : Nat) : (u64be s).length = 8 := beBytes_length 8 s

/-- Big-endian value of a whole byte string (helper for reasoning). -/
def decFold (l : Bytes) : Nat := l.foldl (fun acc x => acc * 256 + x.val) 0

private theorem foldl_dec_decomp : ∀ (l : Bytes) (acc : Nat),
    l.foldl (fun acc x => acc * 256 + x.val) acc
      = acc * 2 ^ (8 * l.length) + decFold l := by
  intro l
  induction l with
  | nil => intro acc; simp [decFold]
  | cons x t ih =>
    intro acc
    have hx : decFold (x :: t) = x.val * 2 ^ (8 * t.length) + decFold t := by
      show List.foldl _ (0 * 256 + x.val) t = _
      rw [ih (0 * 256 + x.val)]; ring_nf
    have hp : (2 : Nat) ^ (8 * (t.length + 1)) = 2 ^ (8 * t.length) * 256 := by
      rw [Nat.mul_succ, pow_add]; norm_num
    show List.foldl _ (acc * 256 + x.val) t = _
    rw [ih (acc * 256 + x.val), hx, List.length_cons, hp]
    ring

theorem decFold_lt (l : Bytes) : decFold l < 2 ^ (8 * l.length) := by
  induction l with
  | nil => simp [decFold]
  | cons x t ih =>
    have hx : decFold (x :: t) = x.val * 2 ^ (8 * t.length) + decFold t := by
      show List.foldl _ (0 * 256 + x.val) t = _
      rw [foldl_dec_decomp t (0 * 256 + x.val)]; ring_nf
    have hxv : x.val + 1 ≤ 256 := x.isLt
    calc decFold (x :: t) < x.val * 2 ^ (8 * t.length) + 2 ^ (8 * t.length) := by
          rw [hx]; exact Nat.add_lt_add_left ih _
      _ = (x.val + 1) * 2 ^ (8 * t.length) := by ring
      _ ≤ 256 * 2 ^ (8 * t.length) := Nat.mul_le_mul_right _ hxv
      _ = 2 ^ (8 * (x :: t).length) := by
          rw [show (256 : Nat) = 2 ^ 8 from rfl, List.length_cons]; ring

theorem decFold_cons (x : Byte) (t : Bytes) :
    decFold (x :: t) = x.val * 2 ^ (8 * t.length) + decFold t := by
  show List.foldl _ (0 * 256 + x.val) t = _
  rw [foldl_dec_decomp t (0 * 256 + x.val)]; ring_nf

private theorem beBytes_add_high (k : Nat) : ∀ (a m : Nat),
    beBytes k (a * 2 ^ (8 * k) + m) = beBytes k m := by
  induction k with
  | zero => intro a m; rfl
  | succ k ih =>
    intro a m
    have hpos : 0 < 2 ^ (8 * k) := pow_pos (by norm_num) _
    have hrw : a * 2 ^ (8 * (k + 1)) + m = a * 2 ^ 8 * 2 ^ (8 * k) + m := by
      rw [Nat.mul_succ, pow_add]; ring
    have hdiv : (a * 2 ^ 8 * 2 ^ (8 * k) + m) / 2 ^ (8 * k)
        = m / 2 ^ (8 * k) + a * 2 ^ 8 := by
      rw [Nat.add_comm, Nat.add_mul_div_right _ _ hpos]
    have hbyte : byteOf (m / 2 ^ (8 * k) + a * 2 ^ 8) = byteOf (m / 2 ^ (8 * k)) := by
      apply Fin.ext
      show (m / 2 ^ (8 * k) + a * 2 ^ 8) % 256 = m / 2 ^ (8 * k) % 256
      rw [show (2 : Nat) ^ 8 = 256 from rfl, Nat.add_mul_mod_self_right]
    show byteOf ((a * 2 ^ (8 * (k + 1)) + m) / 2 ^ (8 * k)) ::
        beBytes k (a * 2 ^ (8 * (k + 1)) + m)
      = byteOf (m / 2 ^ (8 * k)) :: beBytes k m
    rw [hrw, hdiv, hbyte, ih (a * 2 ^ 8) m]

/-- Re-encoding the decoded value of a length-`k` byte string gives it back. -/
theorem beBytes_decFold : ∀ (l : Bytes), beBytes l.length (decFold l) = l := by
  intro l
  induction l with
  | nil => rfl
  | cons x t ih =>
    have hpos : 0 < 2 ^ (8 * t.length) := pow_pos (by norm_num) _
    have hdiv : (x.val * 2 ^ (8 * t.length) + decFold t) / 2 ^ (8 * t.length)
        = x.val := by
      rw [Nat.add_comm, Nat.add_mul_div_right _ _ hpos,
        Nat.div_eq_of_lt (decFold_lt t), Nat.zero_add]
    have hbyte : byteOf x.val = x :=
      Fin.ext (Nat.mod_eq_of_lt x.isLt)
    show byteOf (decFold (x :: t) / 2 ^ (8 * t.length)) ::
        beBytes t.length (decFold (x :: t)) = x :: t
    rw [decFold_cons, beBytes_add_high, ih, hdiv, hbyte]

/-- Big-endian decoding is strictly monotone on equal-length byte strings:
byte-lexicographic order equals numeric order. -/
theorem decFold_lt_of_blt : ∀ {l1 l2 : Bytes}, l1.length = l2.length →
    blt l1 l2 = true → decFold l1 < decFold l2 := by
  intro l1
  induction l1 with
  | nil => intro l2 hl h; cases l2 <;> simp [blt] at h hl
  | cons x t1 ih =>
    intro l2 hl h
    cases l2 with
    | nil => simp at hl
    | cons y t2 =>
      have hlt : t1.length = t2.length := by simpa using hl
      rw [decFold_cons, decFold_cons, ← hlt]
      simp only [blt] at h
      rcases lt_trichotomy x y with hxy | hxy | hxy
      · have hx1 : x.val + 1 ≤ y.val := hxy
        calc x.val * 2 ^ (8 * t1.length) + decFold t1
            < x.val * 2 ^ (8 * t1.length) + 2 ^ (8 * t1.length) :=
              Nat.add_lt_add_left (decFold_lt t1) _
          _ = (x.val + 1) * 2 ^ (8 * t1.length) := by ring
          _ ≤ y.val * 2 ^ (8 * t1.length) := Nat.mul_le_mul_right _ hx1
          _ ≤ y.val * 2 ^ (8 * t1.length) + decFold t2 := Nat.le_add_right _ _
      · subst hxy
        simp only [lt_irrefl, if_false] at h
        exact Nat.add_lt_add_left (ih hlt h) _
      · simp [hxy, not_lt.mpr (le_of_lt hxy)] at h

theorem decodeSeq_eq_decFold {k : Bytes} (h : k.length = 8) :
    decodeSeq k = decFold k := by
  rw [decodeSeq, decFold, List.take_of_length_le (by omega)]

/-- Encoding the decoded sequence number of a length-8 key gives the key back. -/
theorem u64be_decodeSeq {k : Bytes} (h : k.length = 8) : u64be (decodeSeq k) = k := by
  rw [decodeSeq_eq_decFold h, u64be, ← h, beBytes_decFold]

theorem decodeSeq_lt_of_blt {k1 k2 : Bytes} (h1 : k1.length = 8)
    (h2 : k2.length = 8) (h : blt k1 k2 = true) : decodeSeq k1 < decodeSeq k2 := by
  rw [decodeSeq_eq_decFold h1, decodeSeq_eq_decFold h2]
  exact decFold_lt_of_blt (h1.trans h2.symm) h

theorem decodeSeq_lt (b : Bytes) : decodeSeq b < 2 ^ 64 := by
  have h := decFold_lt (b.take 8)
  have hlen : (b.take 8).length ≤ 8 := by
    simp [List.length_take]
  have : (2 : Nat) ^ (8 * (b.take 8).length) ≤ 2 ^ 64 :=
    Nat.pow_le_pow_right (by norm_num) (by omega)
  calc decodeSeq b = decFold (b.take 8) := rfl
    _ < 2 ^ (8 * (b.take 8).length) := h
    _ ≤ 2 ^ 64 := this

/-! ## The value codec (Go `Value`, `newValue`) -/

/-- `newValue seq val` (Go): 8-byte big-endian `seq` followed by `val`. -/
def newValue (seq : Nat) (val : Bytes) : Bytes := u64be seq ++ val

namespace Value

/-- `Value.IsValid` (Go): a value is valid iff its length is at least 8. -/
def IsValid (v : Bytes) : Bool := decide (8 ≤ v.length)

/-- `Value.Data` (Go): the payload part, all bytes after the first 8. -/
def Data (v : Bytes) : Bytes := v.drop 8

/-- `Value.Seq` (Go): the sequence number, big-endian decoding of the first
8 bytes. -/
def Seq (v : Bytes) : Nat := decodeSeq v

/-- `Value.seqBytes` (Go): the first 8 bytes. -/
def seqBytes (v : Bytes) : Bytes := v.take 8

end Value

theorem newValue_length (s : Nat) (p : Bytes) :
    (newValue s p).length = 8 + p.length := by
  simp [newValue, u64be_length]

theorem seqBytes_newValue (s : Nat) (p : Bytes) :
    Value.seqBytes (newValue s p) = u64be s := by
  rw [Value.seqBytes, newValue, show (8 : Nat) = (u64be s).length from (u64be_length s).symm,
    List.take_left]

theorem data_newValue (s : Nat) (p : Bytes) : Value.Data (newValue s p) = p := by
  rw [Value.Data, newValue, show (8 : Nat) = (u64be s).length from (u64be_length s).symm,
    List.drop_left]

theorem seq_newValue (s : Nat) (p : Bytes) : Value.Seq (newValue s p) = s % 2 ^ 64 := by
  have h : (newValue s p).take 8 = u64be s := seqBytes_newValue s p
  rw [Value.Seq, decodeSeq, h,
    ← List.take_of_length_le (le_of_eq (u64be_length s))]
  exact decodeSeq_u64be s

theorem u64be_inj {s1 s2 : Nat} (h1 : s1 < 2 ^ 64) (h2 : s2 < 2 ^ 64)
    (h : u64be s1 = u64be s2) : s1 = s2 := by
  have := congrArg decodeSeq h
  rwa [decodeSeq_u64be, decodeSeq_u64be, Nat.mod_eq_of_lt h1,
    Nat.mod_eq_of_lt h2] at this

/-!
## The external Store, modelled from spec §6

The Store ("Location", bolt) is an external collaborator.  Per the spec it
provides named ordered byte-key collections with point get/put/delete, a
per-collection auto-incrementing 64-bit counter starting at 1, and ordered
cursors with `First`/`Last`/`Next`/`Prev`/`Seek`/`Delete`.  A collection is
modelled as an association list sorted strictly ascending in
byte-lexicographic key order, plus the counter.  Bolt additionally rejects
empty keys on `Put` (`ErrKeyRequired`); the boltseq cache logic depends on
keys being non-empty, so that check is part of the model.  Key/value size
limits are immaterial to the claims and omitted.
-/

/-- An entry of a collection: `(key, value)`. -/
abbrev Entry := Bytes × Bytes

/-- Point lookup in an association list. -/
def lookupL : List Entry → Bytes → Option Bytes
  | [], _ => none
  | e :: t, k => if e.1 = k then some e.2 else lookupL t k

/-- Insert (or replace) keeping the list sorted by key. -/
def insertL (k v : Bytes) : List Entry → List Entry
  | [] => [(k, v)]
  | e :: t =>
    if blt k e.1 then (k, v) :: e :: t
    else if e.1 = k then (k, v) :: t
    else e :: insertL k v t

/-- Remove the entry with the given key, if present. -/
def eraseL (k : Bytes) (l : List Entry) : List Entry :=
  l.filter (fun e => !(e.1 = k : Bool))

/-- Store cursor `Seek`: the first entry whose key is ≥ `k`. -/
def seekL (k : Bytes) (l : List Entry) : Option Entry :=
  l.find? (fun e => ble k e.1)

/-- Store cursor `Next` from the entry with key `k`: the first entry whose
key is strictly greater. -/
def nextL (k : Bytes) (l : List Entry) : Option Entry :=
  l.find? (fun e => blt k e.1)

/-- Store cursor `Prev` from the entry with key `k`: the last entry whose
key is strictly smaller. -/
def prevL (k : Bytes) (l : List Entry) : Option Entry :=
  (l.filter (fun e => blt e.1 k)).getLast?

/-- The list is sorted strictly ascending in byte-lexicographic key order
(bolt's collection ordering). -/
def SortedL (l : List Entry) : Prop :=
  l.Pairwise (fun e1 e2 => blt e1.1 e2.1 = true)

theorem insertL_cons_lt {k v : Bytes} {e : Entry} {t : List Entry}
    (h : blt k e.1 = true) : insertL k v (e :: t) = (k, v) :: e :: t := by
  simp only [insertL]; rw [if_pos h]

theorem insertL_cons_eq {k v : Bytes} {e : Entry} {t : List Entry}
    (h1 : ¬ blt k e.1 = true) (h2 : e.1 = k) :
    insertL k v (e :: t) = (k, v) :: t := by
  simp only [insertL]; rw [if_neg h1, if_pos h2]

theorem insertL_cons_gt {k v : Bytes} {e : Entry} {t : List Entry}
    (h1 : ¬ blt k e.1 = true) (h2 : ¬ e.1 = k) :
    insertL k v (e :: t) = e :: insertL k v t := by
  simp only [insertL]; rw [if_neg h1, if_neg h2]

theorem mem_insertL : ∀ {l : List Entry} {k v e'},
    e' ∈ insertL k v l → e' = (k, v) ∨ e' ∈ l := by
  intro l
  induction l with
  | nil => intro k v e' h; simpa [insertL] using h
  | cons f t ih =>
    intro k v e' h
    by_cases hf1 : blt k f.1
    · rw [insertL_cons_lt hf1] at h
      rcases List.mem_cons.mp h with rfl | hm
      · exact Or.inl rfl
      · exact Or.inr hm
    · by_cases hf2 : f.1 = k
      · rw [insertL_cons_eq hf1 hf2] at h
        rcases List.mem_cons.mp h with rfl | hm
        · exact Or.inl rfl
        · exact Or.inr (List.mem_cons_of_mem _ hm)
      · rw [insertL_cons_gt hf1 hf2] at h
        rcases List.mem_cons.mp h with rfl | hm
        · exact Or.inr (List.mem_cons_self _ _)
        · rcases ih hm with h | h
          · exact Or.inl h
          · exact Or.inr (List.mem_cons_of_mem _ h)

theorem lookupL_mem : ∀ {l : List Entry} {k v},
    lookupL l k = some v → (k, v) ∈ l := by
  intro l
  induction l with
  | nil => intro k v h; simp [lookupL] at h
  | cons e t ih =>
    intro k v h
    by_cases hk : e.1 = k
    · rw [lookupL, if_pos hk] at h
      cases h
      subst hk
      simp
    · rw [lookupL, if_neg hk] at h
      exact List.mem_cons_of_mem _ (ih h)

theorem lookupL_eq_some_of_mem : ∀ {l : List Entry} {k v}, SortedL l →
    (k, v) ∈ l → lookupL l k = some v := by
  intro l
  induction l with
  | nil => intro k v _ h; simp at h
  | cons e t ih =>
    intro k v hs hm
    rcases List.mem_cons.mp hm with he | ht
    · rw [← he]; simp [lookupL]
    · have hlt : blt e.1 k = true := by
        have := (List.pairwise_cons.mp hs).1 (k, v) ht
        exact this
      have hne : ¬ e.1 = k := by
        intro hek; rw [hek] at hlt; rw [blt_irrefl] at hlt; cases hlt
      simp only [lookupL, hne, if_false]
      exact ih (List.pairwise_cons.mp hs).2 ht

theorem lookupL_none_of_not_mem : ∀ {l : List Entry} {k},
    (∀ v, (k, v) ∉ l) → lookupL l k = none := by
  intro l
  induction l with
  | nil => intro k _; rfl
  | cons e t ih =>
    intro k h
    have hne : ¬ e.1 = k := by
      intro hek
      exact h e.2 (by rw [← hek]; left)
    simp only [lookupL, hne, if_false]
    exact ih (fun v hv => h v (List.mem_cons_of_mem _ hv))

theorem lookupL_insert_self (k v : Bytes) : ∀ (l : List Entry),
    lookupL (insertL k v l) k = some v := by
  intro l
  induction l with
  | nil => simp [insertL, lookupL]
  | cons e t ih =>
    by_cases h1 : blt k e.1
    · rw [insertL_cons_lt h1, lookupL, if_pos rfl]
    · by_cases h2 : e.1 = k
      · rw [insertL_cons_eq h1 h2, lookupL, if_pos rfl]
      · rw [insertL_cons_gt h1 h2, lookupL, if_neg h2, ih]

theorem lookupL_insert_ne (k v k' : Bytes) (hne : k' ≠ k) : ∀ (l : List Entry),
    lookupL (insertL k v l) k' = lookupL l k' := by
  intro l
  have hkk : ¬ (k = k') := fun h => hne h.symm
  induction l with
  | nil => simp [insertL, lookupL, hkk]
  | cons e t ih =>
    by_cases h1 : blt k e.1
    · rw [insertL_cons_lt h1, lookupL, if_neg hkk]
    · by_cases h2 : e.1 = k
      · rw [insertL_cons_eq h1 h2, lookupL, if_neg hkk, lookupL,
          if_neg (by rw [h2]; exact fun h => hne h.symm)]
      · rw [insertL_cons_gt h1 h2, lookupL]
        by_cases h3 : e.1 = k'
        · rw [if_pos h3, lookupL, if_pos h3]
        · rw [if_neg h3, lookupL, if_neg h3, ih]

theorem lookupL_erase_self (k : Bytes) (l : List Entry) :
    lookupL (eraseL k l) k = none := by
  apply lookupL_none_of_not_mem
  intro v hv
  have := List.mem_filter.mp hv
  simp at this

theorem lookupL_erase_ne (k k' : Bytes) (hne : k' ≠ k) : ∀ (l : List Entry),
    lookupL (eraseL k l) k' = lookupL l k' := by
  intro l
  induction l with
  | nil => rfl
  | cons e t ih =>
    by_cases h2 : e.1 = k
    · have : eraseL k (e :: t) = eraseL k t := by
        simp [eraseL, List.filter_cons, h2]
      rw [this, ih]
      have hne' : ¬ e.1 = k' := by rw [h2]; exact fun h => hne h.symm
      simp [lookupL, hne']
    · have : eraseL k (e :: t) = e :: eraseL k t := by
        simp [eraseL, List.filter_cons, h2]
      rw [this]
      by_cases h3 : e.1 = k'
      · simp [lookupL, h3]
      · simp [lookupL, h3, ih]

theorem sortedL_insert (k v : Bytes) : ∀ {l : List Entry}, SortedL l →
    SortedL (insertL k v l) := by
  intro l
  induction l with
  | nil => intro _; simp [insertL, SortedL]
  | cons e t ih =>
    intro hs
    rcases List.pairwise_cons.mp hs with ⟨he, ht⟩
    by_cases h1 : blt k e.1
    · rw [insertL_cons_lt h1]
      refine List.pairwise_cons.mpr ⟨?_, hs⟩
      intro e' he'
      rcases List.mem_cons.mp he' with rfl | hm
      · exact h1
      · exact blt_trans h1 (he e' hm)
    · by_cases h2 : e.1 = k
      · rw [insertL_cons_eq h1 h2]
        refine List.pairwise_cons.mpr ⟨?_, ht⟩
        intro e' he'
        have := he e' he'
        rwa [h2] at this
      · rw [insertL_cons_gt h1 h2]
        refine List.pairwise_cons.mpr ⟨?_, ih ht⟩
        intro e' he'
        have hek : blt e.1 k = true := by
          cases h3 : blt e.1 k
          · have h1' : blt k e.1 = false := by
              cases hb : blt k e.1
              · rfl
              · exact absurd hb h1
            exact absurd (blt_total h3 h1') h2
          · rfl
        rcases mem_insertL he' with rfl | hm
        · exact hek
        · exact he e' hm

theorem sortedL_erase (k : Bytes) {l : List Entry} (hs : SortedL l) :
    SortedL (eraseL k l) := hs.filter _

/-- On a sorted list, `Seek` for a key that is present lands exactly on it. -/
theorem seekL_of_lookup : ∀ {l : List Entry} {k v}, SortedL l →
    lookupL l k = some v → seekL k l = some (k, v) := by
  intro l
  induction l with
  | nil => intro k v _ h; simp [lookupL] at h
  | cons e t ih =>
    intro k v hs h
    by_cases hk : e.1 = k
    · rw [lookupL, if_pos hk] at h
      cases h
      rw [seekL, List.find?_cons,
        show ble k e.1 = true from by rw [hk]; exact ble_refl k]
      rw [← hk]
    · rw [lookupL, if_neg hk] at h
      have hmem := lookupL_mem h
      have hlt : blt e.1 k = true :=
        (List.pairwise_cons.mp hs).1 (k, v) hmem
      have hble : ble k e.1 = false := by
        rw [ble, hlt]; rfl
      rw [seekL, List.find?_cons, hble]
      exact ih (List.pairwise_cons.mp hs).2 h

theorem seekL_mem {l : List Entry} {k : Bytes} {e : Entry}
    (h : seekL k l = some e) : e ∈ l :=
  List.mem_of_find?_eq_some h

theorem seekL_ble {l : List Entry} {k : Bytes} {e : Entry}
    (h : seekL k l = some e) : ble k e.1 = true := by
  rw [seekL] at h
  have h2 := List.find?_some h
  simpa using h2

/-- `Next` from an entry of a sorted list yields the head of the suffix
after it. -/
theorem nextL_split : ∀ {l1 : List Entry} {e : Entry} {l2 : List Entry},
    SortedL (l1 ++ e :: l2) → nextL e.1 (l1 ++ e :: l2) = l2.head? := by
  intro l1
  induction l1 with
  | nil =>
    intro e l2 hs
    rw [List.nil_append] at hs ⊢
    rw [nextL, List.find?_cons, blt_irrefl]
    cases l2 with
    | nil => rfl
    | cons f t =>
      have hf : blt e.1 f.1 = true :=
        (List.pairwise_cons.mp hs).1 f (List.mem_cons_self f t)
      rw [List.find?_cons, hf]
      rfl
  | cons a t ih =>
    intro e l2 hs
    rw [List.cons_append] at hs ⊢
    have hae : blt a.1 e.1 = true :=
      (List.pairwise_cons.mp hs).1 e (by simp)
    have hne : blt e.1 a.1 = false := blt_asymm hae
    rw [nextL, List.find?_cons, hne]
    exact ih (List.pairwise_cons.mp hs).2

/-- `Prev` from an entry of a sorted list yields the last entry of the
prefix before it. -/
theorem prevL_split : ∀ {l1 : List Entry} {e : Entry} {l2 : List Entry},
    SortedL (l1 ++ e :: l2) → prevL e.1 (l1 ++ e :: l2) = l1.getLast? := by
  intro l1 e l2 hs
  have hfilter : (l1 ++ e :: l2).filter (fun f => blt f.1 e.1) = l1 := by
    rw [List.filter_append]
    have h1 : l1.filter (fun f => blt f.1 e.1) = l1 := by
      apply List.filter_eq_self.mpr
      intro f hf
      have : ∀ g ∈ e :: l2, blt f.1 g.1 = true := by
        intro g hg
        exact (List.pairwise_append.mp hs).2.2 f hf g hg
      exact this e (List.mem_cons_self e l2)
    have h2 : (e :: l2).filter (fun f => blt f.1 e.1) = [] := by
      apply List.filter_eq_nil_iff.mpr
      intro f hf
      rcases List.mem_cons.mp hf with rfl | hm
      · simp [blt_irrefl]
      · have : blt e.1 f.1 = true :=
          (List.pairwise_cons.mp (List.pairwise_append.mp hs).2.1).1 f hm
        simp [blt_asymm this]
    rw [h1, h2, List.append_nil]
  rw [prevL, hfilter]

/-! ## Collections and the bucket state -/

/-- A Store collection ("sub-bucket"): sorted entries plus the
auto-increment sequence counter. -/
structure Coll where
  entries : List Entry
  counter : Nat
deriving DecidableEq, Repr

/-- A freshly created collection. -/
def emptyColl : Coll := ⟨[], 0⟩

def Coll.get (c : Coll) (k : Bytes) : Option Bytes := lookupL c.entries k

def Coll.put (c : Coll) (k v : Bytes) : Coll := ⟨insertL k v c.entries, c.counter⟩

def Coll.del (c : Coll) (k : Bytes) : Coll := ⟨eraseL k c.entries, c.counter⟩

def Coll.seek (c : Coll) (k : Bytes) : Option Entry := seekL k c.entries

/-- The boltseq bucket's location: the optional "data" and "seq"
sub-buckets (`none` = the sub-bucket has never been created). -/
structure DB where
  data : Option Coll
  seqb : Option Coll
deriving DecidableEq, Repr

/-- A fresh bucket location: neither sub-bucket exists
(`NewBucket` has no side effects). -/
def DB.empty : DB := ⟨none, none⟩

/-- The "data" collection, defaulting to empty (used only where the code
has already ensured it exists). -/
def dataC (db : DB) : Coll := db.data.getD emptyColl

/-- The "seq" collection, defaulting to empty. -/
def seqC (db : DB) : Coll := db.seqb.getD emptyColl

/-- Errors.  `invalidValue`, `invalidBucket`, `invalidKey` are boltseq's
`ErrInvalidValue`/`ErrInvalidBucket`/`ErrInvalidKey`.  `keyRequired` is the
store-level bolt error for an empty key on `Put`.  `crash` models a Go
panic (nil-pointer dereference, or a bolt cursor `Delete` with no current
position), which is not a Go error value. -/
inductive Err where
  | invalidValue
  | invalidBucket
  | invalidKey
  | keyRequired
  | crash
deriving DecidableEq, Repr

deriving instance DecidableEq for Except

/-- The success path shared by both branches of `Bucket.Put`, after any
existing entry for the key has been retired: obtain the next sequence
number, insert the seq-index entry, then insert the data-index entry
(which fails on an empty key — after the seq-index insert, as in the
source). -/
def putFresh (bd bs : Coll) (key value : Bytes) : Except Err Nat × DB :=
  let seq := (bs.counter + 1) % 2 ^ 64
  let bs1 : Coll := ⟨bs.entries, seq⟩
  let val := newValue seq value
  let bs2 := bs1.put (Value.seqBytes val) key
  if key = [] then (.error .keyRequired, ⟨some bd, some bs2⟩)
  else (.ok seq, ⟨some (bd.put key val), some bs2⟩)

/-- `Bucket.Put` (Go): create both sub-buckets if absent; if the key
already exists, validate and retire its old value (both index entries);
then insert under a fresh sequence number.  Returns the sequence number. -/
def Bucket.Put (db : DB) (key value : Bytes) : Except Err Nat × DB :=
  let bd := dataC db
  let bs := seqC db
  match bd.get key with
  | some v =>
    if Value.IsValid v then
      putFresh (bd.del key) (bs.del (Value.seqBytes v)) key value
    else (.error .invalidValue, ⟨some bd, some bs⟩)
  | none => putFresh bd bs key value

/-- `Bucket.Get` (Go): raw data-index lookup; `none` when the collection
doesn't exist or the key is missing. -/
def Bucket.Get (db : DB) (key : Bytes) : Option Bytes :=
  match db.data with
  | none => none
  | some bd => bd.get key

/-- `Bucket.GetSeq` (Go): seq-index lookup by the 8-byte big-endian
encoding of `seq`. -/
def Bucket.GetSeq (db : DB) (seq : Nat) : Option Bytes :=
  match db.seqb with
  | none => none
  | some bs => bs.get (Value.seqBytes (newValue seq []))

/-- `Bucket.Delete` (Go): validate the stored value, then remove the
seq-index entry and the data-index entry. -/
def Bucket.Delete (db : DB) (key : Bytes) : Except Err Unit × DB :=
  match db.data with
  | none => (.error .invalidBucket, db)
  | some bd =>
    match bd.get key with
    | none => (.ok (), db)
    | some v =>
      if Value.IsValid v then
        match db.seqb with
        | none => (.error .invalidBucket, db)
        | some bs =>
          (.ok (), ⟨some (bd.del key), some (bs.del (Value.seqBytes v))⟩)
      else (.error .invalidValue, db)

/-! ## The cached pointer and the cursor -/

/-- `pointer` (Go): a lookup helper over the data index's store cursor.
`cNil` records whether the underlying cursor is nil (data sub-bucket
absent); `pos` is the store cursor's current position (the key it last
landed on; `none` = never positioned or past the end); `key`/`val` are the
cached last result (Go `nil` slices modelled as `[]`). -/
structure Pointer where
  cNil : Bool
  pos : Option Bytes
  key : Bytes
  val : Bytes
deriving DecidableEq, Repr

/-- `pointer.move` (Go): cache hit if the cached key equals `k`
(`bytes.Equal`, under which nil = empty); otherwise seek the store cursor
and cache whatever it returned (a miss caches the landed-on entry). -/
def Pointer.move (p : Pointer) (d : Coll) (k : Bytes) : Bool × Pointer :=
  if p.cNil then (false, p)
  else if p.key = k then (true, p)
  else
    match d.seek k with
    | some e => (decide (e.1 = k), { p with pos := some e.1, key := e.1, val := e.2 })
    | none => (decide (([] : Bytes) = k), { p with pos := none, key := [], val := [] })

/-- `pointer.Get` (Go): resolve `k`; the value is returned only on an
exact hit. -/
def Pointer.get (p : Pointer) (d : Coll) (k : Bytes) : Bytes × Bool × Pointer :=
  let (ok, p1) := p.move d k
  (if ok then p1.val else [], ok, p1)

/-- `pointer.Delete` (Go): resolve `k`; if not found, no-op; if found,
delete at the store cursor's current position (a bolt cursor delete with
no position panics — modelled as `Err.crash`). -/
def Pointer.del (p : Pointer) (d : Coll) (k : Bytes) : Except Err Unit × Pointer × Coll :=
  let (ok, p1) := p.move d k
  if ok then
    match p1.pos with
    | some pk => (.ok (), p1, d.del pk)
    | none => (.error .crash, p1, d)
  else (.ok (), p1, d)

/-- `Cursor` (Go): `csNil` records whether the underlying seq-index store
cursor is nil; `csPos` is that cursor's current position; `dp` is the
cached pointer over the data index; `seq`/`key` are the last decoded
position; `err` is the sticky decode-error field. -/
structure Cursor where
  csNil : Bool
  csPos : Option Bytes
  dp : Pointer
  seq : Nat
  key : Bytes
  err : Option Err
deriving DecidableEq, Repr

/-- `Bucket.Cursor` (Go): nil sub-cursors for missing sub-buckets;
everything else zero-valued. -/
def DB.cursor (db : DB) : Cursor :=
  { csNil := db.seqb.isNone, csPos := none,
    dp := { cNil := db.data.isNone, pos := none, key := [], val := [] },
    seq := 0, key := [], err := none }

/-- `Cursor.sync` (Go): decode a raw (seq-bytes, key) pair.  Absent pair:
return false (plain exhaustion, fields untouched).  Seq-bytes shorter than
8: set the sticky error and return false.  Otherwise record the decoded
position. -/
def Cursor.sync (c : Cursor) (raw : Option Entry) : Bool × Cursor :=
  match raw with
  | none => (false, c)
  | some e =>
    if Value.IsValid e.1 then
      (true, { c with seq := Value.Seq e.1, key := e.2 })
    else
      (false, { c with err := some .invalidKey })

/-- `Cursor.First` (Go). -/
def Cursor.first (c : Cursor) (db : DB) : Bool × Cursor :=
  if c.csNil then (false, c)
  else
    let raw := (seqC db).entries.head?
    Cursor.sync { c with csPos := raw.map Prod.fst } raw

/-- `Cursor.Last` (Go). -/
def Cursor.last (c : Cursor) (db : DB) : Bool × Cursor :=
  if c.csNil then (false, c)
  else
    let raw := (seqC db).entries.getLast?
    Cursor.sync { c with csPos := raw.map Prod.fst } raw

/-- `Cursor.Next` (Go).  The store cursor advances to the entry after its
current position (`none` once exhausted). -/
def Cursor.next (c : Cursor) (db : DB) : Bool × Cursor :=
  if c.csNil then (false, c)
  else
    let raw := match c.csPos with
      | some k => nextL k (seqC db).entries
      | none => none
    Cursor.sync { c with csPos := raw.map Prod.fst } raw

/-- `Cursor.Prev` (Go). -/
def Cursor.prev (c : Cursor) (db : DB) : Bool × Cursor :=
  if c.csNil then (false, c)
  else
    let raw := match c.csPos with
      | some k => prevL k (seqC db).entries
      | none => none
    Cursor.sync { c with csPos := raw.map Prod.fst } raw

/-- `Cursor.Seek` (Go): store-seek to the first entry with key ≥ the
8-byte encoding of `seq`, then `sync`. -/
def Cursor.seek (c : Cursor) (db : DB) (s : Nat) : Bool × Cursor :=
  if c.csNil then (false, c)
  else
    let raw := (seqC db).seek (Value.seqBytes (newValue s []))
    Cursor.sync { c with csPos := raw.map Prod.fst } raw

/-- `Cursor.Data` (Go): resolve the current key through the cached
pointer; `InvalidKey` if the data index has no entry for it, `InvalidValue`
if the resolved value is shorter than 8 bytes. -/
def Cursor.data (c : Cursor) (db : DB) : Except Err Bytes × Cursor :=
  let r := c.dp.get (dataC db) c.key
  let c1 := { c with dp := r.2.2 }
  if r.2.1 then
    if Value.IsValid r.1 then (.ok (Value.Data r.1), c1)
    else (.error .invalidValue, c1)
  else (.error .invalidKey, c1)

/-- `Cursor.Delete` (Go): delete the current key from the data index via
the cached pointer, then delete the current seq-index entry at the store
cursor's position.  The second step dereferences `c.cs` with no nil guard
(`Err.crash` when the seq sub-bucket never existed), and a bolt cursor
delete with no current position panics likewise. -/
def Cursor.del (c : Cursor) (db : DB) : Except Err Unit × Cursor × DB :=
  let r := c.dp.del (dataC db) c.key
  let db1 : DB := { db with data := db.data.map (fun _ => r.2.2) }
  let c1 := { c with dp := r.2.1 }
  match r.1 with
  | .error e => (.error e, c1, db1)
  | .ok _ =>
    if c.csNil then (.error .crash, c1, db1)
    else
      match c.csPos with
      | some sk => (.ok (), c1, { db1 with seqb := db1.seqb.map (fun bs => bs.del sk) })
      | none => (.error .crash, c1, db1)

/-- `Bucket.DeleteSeq` (Go): seek the cursor to `seq`; propagate a decode
error; silently no-op when nothing ≥ `seq` exists or the seek landed on a
different sequence; otherwise delete the current entry. -/
def Bucket.DeleteSeq (db : DB) (s : Nat) : Except Err Unit × DB :=
  let c := db.cursor
  let r := c.seek db s
  if r.1 then
    if r.2.seq ≠ s then (.ok (), db)
    else
      let r2 := (r.2).del db
      (r2.1, r2.2.2)
  else
    ((match r.2.err with
      | some e => .error e
      | none => .ok ()), db)

/-! ## Cursor traversal and the operation language -/

/-- Run `n` further `Next` steps from a positioning state (used to model a
caller that positions a cursor and then deletes). -/
def walkNext (db : DB) : Nat → Bool × Cursor → Bool × Cursor
  | 0, st => st
  | n + 1, st => if st.1 then walkNext db n (st.2.next db) else (false, st.2)

/-- Forward traversal: emit `(Seq(), Key())` while positioned, following
`Next`, with explicit fuel. -/
def fwdAux (db : DB) : Nat → Bool × Cursor → List (Nat × Bytes)
  | 0, _ => []
  | fuel + 1, st =>
    if st.1 then (st.2.seq, st.2.key) :: fwdAux db fuel (st.2.next db)
    else []

/-- Backward traversal: emit while positioned, following `Prev`. -/
def bwdAux (db : DB) : Nat → Bool × Cursor → List (Nat × Bytes)
  | 0, _ => []
  | fuel + 1, st =>
    if st.1 then (st.2.seq, st.2.key) :: bwdAux db fuel (st.2.prev db)
    else []

/-- The full forward traversal `First(); for { Next() }`. -/
def fwdTraverse (db : DB) : List (Nat × Bytes) :=
  fwdAux db (seqC db).entries.length ((db.cursor).first db)

/-- The full backward traversal `Last(); for { Prev() }`. -/
def bwdTraverse (db : DB) : List (Nat × Bytes) :=
  bwdAux db (seqC db).entries.length ((db.cursor).last db)

/-- The mutating operations of the bucket API.  `curDel n` is a caller
positioning a fresh cursor with `First` and `n` times `Next`, then calling
`Cursor.Delete` if positioned. -/
inductive Op where
  | put (k v : Bytes)
  | del (k : Bytes)
  | delSeq (s : Nat)
  | curDel (n : Nat)

/-- The state after one operation. -/
def applyOp (db : DB) : Op → DB
  | .put k v => (Bucket.Put db k v).2
  | .del k => (Bucket.Delete db k).2
  | .delSeq s => (Bucket.DeleteSeq db s).2
  | .curDel n =>
    let st := walkNext db n ((db.cursor).first db)
    if st.1 then ((st.2).del db).2.2 else db

/-- Whether one operation completed successfully (no error, no panic). -/
def opOk (db : DB) : Op → Bool
  | .put k v => match (Bucket.Put db k v).1 with | .ok _ => true | .error _ => false
  | .del k => match (Bucket.Delete db k).1 with | .ok _ => true | .error _ => false
  | .delSeq s => match (Bucket.DeleteSeq db s).1 with | .ok _ => true | .error _ => false
  | .curDel n =>
    let st := walkNext db n ((db.cursor).first db)
    if st.1 then
      match ((st.2).del db).1 with | .ok _ => true | .error _ => false
    else true

/-- Run a list of operations from a state. -/
def runOps : List Op → DB → DB
  | [], db => db
  | o :: os, db => runOps os (applyOp db o)

/-- All operations in the list completed successfully. -/
def runOk : List Op → DB → Bool
  | [], _ => true
  | o :: os, db => opOk db o && runOk os (applyOp db o)

/-! ## The dual-index invariant -/

/-- The two indices mirror each other (spec I1/I4): every data entry has a
non-empty key (bolt rejects empty keys) and a valid (≥ 8 byte) value whose
encoded sequence number maps back to the key in the seq index; every seq
entry has an 8-byte key and points to a data entry whose value encodes
exactly that sequence key. -/
def Mirror (d s : Coll) : Prop :=
  (∀ e ∈ d.entries, e.1 ≠ [] ∧ 8 ≤ e.2.length ∧
    s.get (Value.seqBytes e.2) = some e.1) ∧
  (∀ e ∈ s.entries, e.1.length = 8 ∧
    ∃ v, d.get e.2 = some v ∧ Value.seqBytes v = e.1)

/-- The seq collection's counter dominates every live sequence number and
has not overflowed (spec I3). -/
def SeqBound (s : Coll) : Prop :=
  s.counter < 2 ^ 64 ∧ ∀ e ∈ s.entries, decodeSeq e.1 ≤ s.counter

/-- The reachable-state invariant of a bucket: both sub-buckets exist
together, both are sorted, they mirror each other, and the counter
dominates the live sequence numbers. -/
def Inv (db : DB) : Prop :=
  (db.data.isSome ↔ db.seqb.isSome) ∧
  SortedL (dataC db).entries ∧ SortedL (seqC db).entries ∧
  Mirror (dataC db) (seqC db) ∧ SeqBound (seqC db)

theorem inv_empty : Inv DB.empty := by
  refine ⟨Iff.rfl, ?_, ?_, ⟨?_, ?_⟩, ?_, ?_⟩
  · simp [dataC, DB.empty, emptyColl, SortedL]
  · simp [seqC, DB.empty, emptyColl, SortedL]
  · intro e he; simp [dataC, DB.empty, emptyColl] at he
  · intro e he; simp [seqC, DB.empty, emptyColl] at he
  · show (seqC DB.empty).counter < 2 ^ 64
    norm_num [seqC, DB.empty, emptyColl]
  · intro e he; simp [seqC, DB.empty, emptyColl] at he

theorem get_put_self (c : Coll) (k v : Bytes) : (c.put k v).get k = some v :=
  lookupL_insert_self k v c.entries

theorem get_put_ne (c : Coll) {k k' : Bytes} (v : Bytes) (h : k' ≠ k) :
    (c.put k v).get k' = c.get k' :=
  lookupL_insert_ne k v k' h c.entries

theorem get_del_self (c : Coll) (k : Bytes) : (c.del k).get k = none :=
  lookupL_erase_self k c.entries

theorem get_del_ne (c : Coll) {k k' : Bytes} (h : k' ≠ k) :
    (c.del k).get k' = c.get k' :=
  lookupL_erase_ne k k' h c.entries

theorem mem_del {c : Coll} {k : Bytes} {e : Entry} (h : e ∈ (c.del k).entries) :
    e ∈ c.entries ∧ ¬ e.1 = k := by
  have := List.mem_filter.mp h
  simpa using this

theorem lookup_unique {l : List Entry} {k v w : Bytes}
    (h1 : lookupL l k = some v) (h2 : lookupL l k = some w) : v = w := by
  rw [h1] at h2
  cases h2
  rfl

/-- Deleting a mirrored pair (data entry `k ↦ v` and seq entry
`seqBytes v ↦ k`) preserves the invariant.  This is the common core of
`Bucket.Delete`, `Bucket.DeleteSeq` and `Cursor.Delete`. -/
theorem inv_delete_pair {d s : Coll} {k v : Bytes}
    (hinv : Inv ⟨some d, some s⟩) (hget : d.get k = some v) :
    Inv ⟨some (d.del k), some (s.del (Value.seqBytes v))⟩ := by
  obtain ⟨_, hsd, hss, ⟨hm1, hm2⟩, hcnt, hdom⟩ := hinv
  simp only [dataC, seqC, Option.getD] at hsd hss hm1 hm2 hcnt hdom
  have hkv_mem : (k, v) ∈ d.entries := lookupL_mem hget
  obtain ⟨-, -, hsk⟩ := hm1 (k, v) hkv_mem
  refine ⟨by simp, ?_, ?_, ⟨?_, ?_⟩, ?_, ?_⟩
  · exact sortedL_erase _ hsd
  · exact sortedL_erase _ hss
  · -- data side of the mirror
    intro e he
    obtain ⟨hmem, hne⟩ := mem_del he
    obtain ⟨hne', hlen, hget'⟩ := hm1 e hmem
    refine ⟨hne', hlen, ?_⟩
    have hsb_ne : Value.seqBytes e.2 ≠ Value.seqBytes v := by
      intro heq
      rw [heq, hsk] at hget'
      cases hget'
      exact hne rfl
    show (s.del (Value.seqBytes v)).get (Value.seqBytes e.2) = some e.1
    rw [get_del_ne s hsb_ne]
    exact hget'
  · -- seq side of the mirror
    intro e he
    obtain ⟨hmem, hne⟩ := mem_del he
    obtain ⟨hlen, w, hgw, hsw⟩ := hm2 e hmem
    refine ⟨hlen, w, ?_, hsw⟩
    have hek : e.2 ≠ k := by
      intro heq
      rw [heq] at hgw
      have := lookup_unique hgw hget
      rw [this] at hsw
      exact hne (hsw ▸ rfl)
    show (d.del k).get e.2 = some w
    rw [get_del_ne d hek]
    exact hgw
  · exact hcnt
  · intro e he
    exact hdom e (mem_del he).1

theorem isValid_iff {v : Bytes} : Value.IsValid v = true ↔ 8 ≤ v.length :=
  decide_eq_true_iff

theorem seqBytes_length {v : Bytes} (h : 8 ≤ v.length) :
    (Value.seqBytes v).length = 8 := by
  simp [Value.seqBytes, List.length_take]
  omega

theorem seq_eq_decode_seqBytes (v : Bytes) :
    Value.Seq v = decodeSeq (Value.seqBytes v) := by
  rw [Value.Seq, Value.seqBytes, decodeSeq, decodeSeq, List.take_take]
  norm_num

/-- `Inv` transfers to the explicit pair of current collections. -/
theorem inv_pair_of {db : DB} (hinv : Inv db) :
    Inv ⟨some (dataC db), some (seqC db)⟩ := by
  obtain ⟨_, hsd, hss, hm, hb⟩ := hinv
  exact ⟨by simp, hsd, hss, hm, hb⟩

/-- The fresh-insert half of `Put` (after any retirement) succeeds and
preserves the invariant, returning the incremented counter. -/
theorem inv_putFresh {d s : Coll} {key : Bytes} (value : Bytes)
    (hinv : Inv ⟨some d, some s⟩) (hovf : s.counter + 1 < 2 ^ 64)
    (hnone : d.get key = none) (hkey : key ≠ []) :
    (putFresh d s key value).1 = .ok (s.counter + 1) ∧
    Inv (putFresh d s key value).2 ∧
    (seqC (putFresh d s key value).2).counter = s.counter + 1 := by
  obtain ⟨_, hsd, hss, ⟨hm1, hm2⟩, hcnt, hdom⟩ := hinv
  simp only [dataC, seqC, Option.getD] at hsd hss hm1 hm2 hcnt hdom
  have hseq : (s.counter + 1) % 2 ^ 64 = s.counter + 1 := Nat.mod_eq_of_lt hovf
  have hsb : Value.seqBytes (newValue (s.counter + 1) value)
      = u64be (s.counter + 1) := seqBytes_newValue _ _
  have hdec : decodeSeq (u64be (s.counter + 1)) = s.counter + 1 := by
    rw [decodeSeq_u64be, hseq]
  have hfresh : ∀ e ∈ s.entries, e.1 ≠ u64be (s.counter + 1) := by
    intro e he heq
    have := hdom e he
    rw [heq, hdec] at this
    omega
  have hsget : lookupL s.entries (u64be (s.counter + 1)) = none := by
    apply lookupL_none_of_not_mem
    intro w hw
    exact hfresh _ hw rfl
  simp only [putFresh, if_neg hkey, hseq, hsb]
  refine ⟨by trivial, ⟨by simp, ?_, ?_, ⟨?_, ?_⟩, ?_, ?_⟩, by simp [seqC, Coll.put]⟩
  · exact sortedL_insert _ _ hsd
  · exact sortedL_insert _ _ hss
  · -- data side
    intro e he
    simp only [dataC, seqC, Option.getD, Coll.put] at he ⊢
    rcases mem_insertL he with rfl | hmem
    · refine ⟨hkey, ?_, ?_⟩
      · rw [newValue_length]; omega
      · show Coll.get _ (Value.seqBytes (newValue (s.counter + 1) value)) = _
        rw [hsb, Coll.get]
        exact lookupL_insert_self _ _ _
    · obtain ⟨hne', hlen, hget'⟩ := hm1 e hmem
      refine ⟨hne', hlen, ?_⟩
      have hsbne : Value.seqBytes e.2 ≠ u64be (s.counter + 1) := by
        intro heq
        have hmem2 := lookupL_mem hget'
        have := hdom _ hmem2
        simp only at this
        rw [heq, hdec] at this
        omega
      show Coll.get _ (Value.seqBytes e.2) = _
      rw [Coll.get]
      show lookupL (insertL (u64be (s.counter + 1)) key s.entries) _ = _
      rw [lookupL_insert_ne _ _ _ hsbne]
      exact hget'
  · -- seq side
    intro e he
    simp only [dataC, seqC, Option.getD, Coll.put] at he ⊢
    rcases mem_insertL he with rfl | hmem
    · refine ⟨u64be_length _, newValue (s.counter + 1) value, ?_, hsb⟩
      show Coll.get _ key = _
      rw [Coll.get]
      show lookupL (insertL key _ d.entries) key = _
      exact lookupL_insert_self _ _ _
    · obtain ⟨hlen, w, hgw, hsw⟩ := hm2 e hmem
      have hek : e.2 ≠ key := by
        intro heq
        rw [heq] at hgw
        rw [hgw] at hnone
        cases hnone
      refine ⟨hlen, w, ?_, hsw⟩
      show Coll.get _ e.2 = _
      rw [Coll.get]
      show lookupL (insertL key _ d.entries) e.2 = _
      rw [lookupL_insert_ne _ _ _ hek]
      exact hgw
  · simpa [seqC, Coll.put] using hovf
  · intro e he
    simp only [seqC, Option.getD, Coll.put] at he ⊢
    rcases mem_insertL he with rfl | hmem
    · exact le_of_eq hdec
    · exact le_trans (hdom e hmem) (Nat.le_succ _)

/-- Characterization of a successful `Put`: the new data entry, the new
seq entry, and the returned sequence number. -/
theorem putFresh_ok {bd bs : Coll} {key value : Bytes} {s : Nat} {db' : DB}
    (h : putFresh bd bs key value = (.ok s, db')) :
    key ≠ [] ∧ s = (bs.counter + 1) % 2 ^ 64 ∧
    db' = ⟨some (bd.put key (newValue s value)),
           some ((⟨bs.entries, s⟩ : Coll).put (Value.seqBytes (newValue s value)) key)⟩ := by
  by_cases hk : key = []
  · rw [putFresh, if_pos hk] at h
    injection h with h1 _
    injection h1
  · rw [putFresh, if_neg hk] at h
    injection h with h1 h2
    injection h1 with h1
    subst h1
    exact ⟨hk, rfl, h2.symm⟩

theorem put_ok_get {db : DB} {key value : Bytes} {s : Nat} {db' : DB}
    (h : Bucket.Put db key value = (.ok s, db')) :
    Bucket.Get db' key = some (newValue s value) ∧
    Bucket.GetSeq db' s = some key ∧
    s = ((seqC db).counter + 1) % 2 ^ 64 ∧
    (seqC db').counter = s ∧ key ≠ [] := by
  have main : ∀ (bd bs : Coll), bs.counter = (seqC db).counter →
      putFresh bd bs key value = (.ok s, db') →
      Bucket.Get db' key = some (newValue s value) ∧
      Bucket.GetSeq db' s = some key ∧
      s = ((seqC db).counter + 1) % 2 ^ 64 ∧
      (seqC db').counter = s ∧ key ≠ [] := by
    intro bd bs hcnt hpf
    obtain ⟨hk, hs, hdb⟩ := putFresh_ok hpf
    subst hdb
    refine ⟨?_, ?_, by rw [hs, hcnt], by simp [seqC, Coll.put], hk⟩
    · rw [Bucket.Get]
      exact get_put_self _ _ _
    · rw [Bucket.GetSeq]
      show Coll.get _ (Value.seqBytes (newValue s [])) = _
      rw [seqBytes_newValue, ← seqBytes_newValue s value]
      exact get_put_self _ _ _
  rw [Bucket.Put] at h
  rcases hv : (dataC db).get key with _ | v <;> rw [hv] at h <;> simp only [] at h
  · exact main _ _ rfl h
  · by_cases hvv : Value.IsValid v = true
    · rw [if_pos hvv] at h
      exact main _ _ (by simp [Coll.del]) h
    · rw [if_neg hvv] at h
      injection h with h1 _
      injection h1

/-- A successful `Put` preserves the invariant (needs the counter not to
overflow at this step). -/
theorem inv_put {db : DB} {key value : Bytes} {s : Nat} {db' : DB}
    (hinv : Inv db) (hovf : (seqC db).counter + 1 < 2 ^ 64)
    (h : Bucket.Put db key value = (.ok s, db')) : Inv db' := by
  rw [Bucket.Put] at h
  rcases hv : (dataC db).get key with _ | v <;> rw [hv] at h <;> simp only [] at h
  · obtain ⟨hk, _, _⟩ := putFresh_ok h
    have h2 := (inv_putFresh value (inv_pair_of hinv) hovf hv hk).2.1
    have he : (putFresh (dataC db) (seqC db) key value).2 = db' := congrArg Prod.snd h
    rwa [he] at h2
  · by_cases hvv : Value.IsValid v = true
    · rw [if_pos hvv] at h
      obtain ⟨hk, _, _⟩ := putFresh_ok h
      have hdel : Inv ⟨some ((dataC db).del key), some ((seqC db).del (Value.seqBytes v))⟩ :=
        inv_delete_pair (inv_pair_of hinv) hv
      have hovf' : ((seqC db).del (Value.seqBytes v)).counter + 1 < 2 ^ 64 := by
        simpa [Coll.del] using hovf
      have hget' : ((dataC db).del key).get key = none := get_del_self _ _
      have h2 := (inv_putFresh value hdel hovf' hget' hk).2.1
      have he : (putFresh ((dataC db).del key) ((seqC db).del (Value.seqBytes v)) key value).2 = db' :=
        congrArg Prod.snd h
      rwa [he] at h2
    · rw [if_neg hvv] at h
      injection h with h1 _
      injection h1

/-- `Delete` preserves the invariant unconditionally (its error paths do
not mutate). -/
theorem inv_del {db : DB} (k : Bytes) (hinv : Inv db) :
    Inv (Bucket.Delete db k).2 := by
  rcases hd : db.data with _ | bd
  · simp only [Bucket.Delete, hd]
    exact hinv
  · rcases hv : bd.get k with _ | v
    · simp only [Bucket.Delete, hd, hv]
      exact hinv
    · by_cases hvv : Value.IsValid v = true
      · rcases hsq : db.seqb with _ | bs
        · simp only [Bucket.Delete, hd, hv, if_pos hvv, hsq]
          exact hinv
        · simp only [Bucket.Delete, hd, hv, if_pos hvv, hsq]
          have hbd : dataC db = bd := by simp [dataC, hd]
          have hbs : seqC db = bs := by simp [seqC, hsq]
          have h2 := inv_delete_pair (inv_pair_of hinv) (by rw [hbd]; exact hv)
          rw [hbd, hbs] at h2
          exact h2
      · simp only [Bucket.Delete, hd, hv, if_neg hvv]
        exact hinv

/-! ## Cursor positioning facts -/

theorem sync_true {c : Cursor} {raw : Option Entry} {st : Bool × Cursor}
    (h : Cursor.sync c raw = st) (ht : st.1 = true) :
    ∃ e, raw = some e ∧ Value.IsValid e.1 = true ∧
      st.2 = { c with seq := Value.Seq e.1, key := e.2 } := by
  rcases raw with _ | e
  · rw [Cursor.sync] at h
    rw [← h] at ht
    cases ht
  · rw [Cursor.sync] at h
    by_cases hv : Value.IsValid e.1 = true
    · rw [if_pos hv] at h
      exact ⟨e, rfl, hv, by rw [← h]⟩
    · rw [if_neg hv] at h
      rw [← h] at ht
      cases ht

/-- A successful `First` lands on the head entry of the seq index. -/
theorem first_true {c : Cursor} {db : DB} {st : Bool × Cursor}
    (h : c.first db = st) (ht : st.1 = true) :
    c.csNil = false ∧ ∃ e, (seqC db).entries.head? = some e ∧
      Value.IsValid e.1 = true ∧ st.2.csPos = some e.1 ∧ st.2.key = e.2 ∧
      st.2.seq = Value.Seq e.1 ∧ st.2.dp = c.dp ∧ st.2.csNil = c.csNil ∧
      st.2.err = c.err ∧ e ∈ (seqC db).entries := by
  rw [Cursor.first] at h
  by_cases hn : c.csNil
  · rw [if_pos hn] at h
    rw [← h] at ht
    cases ht
  · rw [if_neg hn] at h
    obtain ⟨e, hraw, hv, hc⟩ := sync_true h ht
    have hmem : e ∈ (seqC db).entries := by
      obtain ⟨t, hteq⟩ := List.head?_eq_some_iff.mp hraw
      rw [hteq]
      exact List.mem_cons_self _ _
    refine ⟨by simpa using hn, e, hraw, hv, ?_, ?_, ?_, ?_, ?_, ?_, hmem⟩ <;>
      (rw [hc]; all_goals simp [hraw])

/-- A successful `Next` lands on the first entry past the current
position. -/
theorem next_true {c : Cursor} {db : DB} {st : Bool × Cursor}
    (h : c.next db = st) (ht : st.1 = true) :
    c.csNil = false ∧ ∃ k e, c.csPos = some k ∧
      nextL k (seqC db).entries = some e ∧
      Value.IsValid e.1 = true ∧ st.2.csPos = some e.1 ∧ st.2.key = e.2 ∧
      st.2.seq = Value.Seq e.1 ∧ st.2.dp = c.dp ∧ st.2.csNil = c.csNil ∧
      st.2.err = c.err ∧ e ∈ (seqC db).entries := by
  rw [Cursor.next] at h
  by_cases hn : c.csNil
  · rw [if_pos hn] at h
    rw [← h] at ht
    cases ht
  · rw [if_neg hn] at h
    rcases hp : c.csPos with _ | k
    · rw [hp] at h
      obtain ⟨e, hraw, _, _⟩ := sync_true h ht
      cases hraw
    · rw [hp] at h
      obtain ⟨e, hraw, hv, hc⟩ := sync_true h ht
      have hraw' : nextL k (seqC db).entries = some e := hraw
      have hmem : e ∈ (seqC db).entries := by
        rw [nextL] at hraw'
        exact List.mem_of_find?_eq_some hraw'
      have hraw2 : nextL k (seqC db).entries = some e := hraw
      refine ⟨by simpa using hn, ?_⟩
      refine Exists.intro k (Exists.intro e ?_)
      refine ⟨rfl, hraw2, hv, ?_, ?_, ?_, ?_, ?_, ?_, hmem⟩ <;>
        (rw [hc]; all_goals simp [hraw, hraw2])

/-- A successful `Seek` lands on the first entry at-or-after the encoded
sequence number. -/
theorem seek_true {c : Cursor} {db : DB} {s : Nat} {st : Bool × Cursor}
    (h : c.seek db s = st) (ht : st.1 = true) :
    c.csNil = false ∧ ∃ e, seekL (u64be s) (seqC db).entries = some e ∧
      Value.IsValid e.1 = true ∧ st.2.csPos = some e.1 ∧ st.2.key = e.2 ∧
      st.2.seq = Value.Seq e.1 ∧ st.2.dp = c.dp ∧ st.2.csNil = c.csNil ∧
      st.2.err = c.err ∧ e ∈ (seqC db).entries := by
  rw [Cursor.seek] at h
  by_cases hn : c.csNil
  · rw [if_pos hn] at h
    rw [← h] at ht
    cases ht
  · rw [if_neg hn] at h
    rw [show Value.seqBytes (newValue s []) = u64be s from seqBytes_newValue s []] at h
    obtain ⟨e, hraw, hv, hc⟩ := sync_true h ht
    have hraw' : seekL (u64be s) (seqC db).entries = some e := hraw
    have hmem : e ∈ (seqC db).entries := seekL_mem hraw'
    refine ⟨by simpa using hn, ?_⟩
    refine Exists.intro e ?_
    refine ⟨hraw', hv, ?_, ?_, ?_, ?_, ?_, ?_, hmem⟩ <;>
      (rw [hc]; all_goals simp [hraw, hraw'])

/-- A cursor state that is positioned at a live seq-index entry with an
untouched (fresh) data pointer. -/
def Positioned (db : DB) (c : Cursor) : Prop :=
  c.csNil = false ∧ c.dp = (db.cursor).dp ∧
  ∃ sk, c.csPos = some sk ∧ (sk, c.key) ∈ (seqC db).entries

/-- `Cursor.Delete` from a positioned cursor on an invariant-satisfying
state: it resolves the data entry exactly, deletes both index entries, and
preserves the invariant. -/
theorem cursor_del_spec {db : DB} {c : Cursor} (hinv : Inv db)
    (hpos : Positioned db c) :
    ∃ v sk, c.csPos = some sk ∧ (dataC db).get c.key = some v ∧
      Value.seqBytes v = sk ∧
      (c.del db).1 = .ok () ∧
      (c.del db).2.2 = ⟨some ((dataC db).del c.key), some ((seqC db).del sk)⟩ ∧
      Inv (c.del db).2.2 := by
  obtain ⟨hcs, hdp, sk, hp, hmem⟩ := hpos
  obtain ⟨hiff, hsd, hss, ⟨hm1, hm2⟩, hb⟩ := hinv
  -- the seq sub-bucket exists (its entry list is non-empty)
  have hsq : ∃ bs, db.seqb = some bs := by
    rcases hq : db.seqb with _ | bs
    · rw [show seqC db = emptyColl from by simp [seqC, hq]] at hmem
      simp [emptyColl] at hmem
    · exact ⟨bs, rfl⟩
  obtain ⟨bs, hq⟩ := hsq
  have hd : ∃ bd, db.data = some bd := by
    rcases hx : db.data with _ | bd
    · rw [hx, hq] at hiff
      simp at hiff
    · exact ⟨bd, rfl⟩
  obtain ⟨bd, hx⟩ := hd
  -- the mirrored data entry
  obtain ⟨hlen8, v, hgv0, hsv0⟩ := hm2 (sk, c.key) hmem
  have hgv : (dataC db).get c.key = some v := hgv0
  have hsv : Value.seqBytes v = sk := hsv0
  have hknil : c.key ≠ [] := by
    have hmem2 := lookupL_mem hgv
    exact (hm1 (c.key, v) hmem2).1
  -- pointer.delete: fresh pointer, non-empty key → exact seek, delete
  have hseek : (dataC db).seek c.key = some (c.key, v) :=
    seekL_of_lookup hsd hgv
  have hmove : ((db.cursor).dp).move (dataC db) c.key
      = (true, { (db.cursor).dp with pos := some c.key, key := c.key, val := v }) := by
    rw [Pointer.move]
    have hcnil : ((db.cursor).dp).cNil = false := by
      simp [DB.cursor, hx]
    rw [if_neg (by rw [hcnil]; simp)]
    have hpkey : ((db.cursor).dp).key = [] := rfl
    rw [if_neg (by rw [hpkey]; exact fun hh => hknil hh.symm)]
    rw [hseek]
    simp
  have hpdel : ((db.cursor).dp).del (dataC db) c.key
      = (.ok (), { (db.cursor).dp with pos := some c.key, key := c.key, val := v },
         (dataC db).del c.key) := by
    rw [Pointer.del, hmove]
    simp
  refine ⟨v, sk, hp, hgv, hsv, ?_, ?_, ?_⟩
  · rw [Cursor.del, hdp, hpdel]
    simp only
    rw [if_neg (by rw [hcs]; simp), hp]
  · rw [Cursor.del, hdp, hpdel]
    simp only
    rw [if_neg (by rw [hcs]; simp), hp]
    have hbs : seqC db = bs := by simp [seqC, hq]
    simp [hx, hq, hbs]
  · have he : (c.del db).2.2 = ⟨some ((dataC db).del c.key), some ((seqC db).del sk)⟩ := by
      rw [Cursor.del, hdp, hpdel]
      simp only
      rw [if_neg (by rw [hcs]; simp), hp]
      have hbs : seqC db = bs := by simp [seqC, hq]
      simp [hx, hq, hbs]
    rw [he, ← hsv]
    exact inv_delete_pair (inv_pair_of ⟨hiff, hsd, hss, ⟨hm1, hm2⟩, hb⟩) hgv

/-- A successful `Seek` leaves the cursor `Positioned`. -/
theorem seek_positioned {db : DB} {s : Nat} {st : Bool × Cursor}
    (h : (db.cursor).seek db s = st) (ht : st.1 = true) :
    Positioned db st.2 := by
  obtain ⟨hcs, e, hraw, hv, hpos, hkey, _, hdp, hcsn, _, hmem⟩ := seek_true h ht
  refine ⟨by rw [hcsn]; exact hcs, hdp, e.1, hpos, ?_⟩
  rw [hkey]
  simpa using hmem

/-- `DeleteSeq` preserves the invariant unconditionally. -/
theorem inv_delSeq {db : DB} (s : Nat) (hinv : Inv db) :
    Inv (Bucket.DeleteSeq db s).2 := by
  rw [Bucket.DeleteSeq]
  simp only
  by_cases hok : ((db.cursor).seek db s).1 = true
  · rw [if_pos hok]
    by_cases hne : ((db.cursor).seek db s).2.seq ≠ s
    · rw [if_pos hne]
      exact hinv
    · rw [if_neg hne]
      have hP : Positioned db ((db.cursor).seek db s).2 := seek_positioned rfl hok
      obtain ⟨v, sk, _, _, _, _, _, hinv2⟩ := cursor_del_spec hinv hP
      exact hinv2
  · rw [if_neg hok]
    exact hinv

/-- A successful `First` leaves the cursor `Positioned`. -/
theorem first_positioned {db : DB} {st : Bool × Cursor}
    (h : (db.cursor).first db = st) (ht : st.1 = true) :
    Positioned db st.2 := by
  obtain ⟨hcs, e, hraw, hv, hpos, hkey, _, hdp, hcsn, _, hmem⟩ := first_true h ht
  refine ⟨by rw [hcsn]; exact hcs, hdp, e.1, hpos, ?_⟩
  rw [hkey]
  simpa using hmem

/-- `Next` steps keep the cursor positioned at live entries. -/
theorem walk_positioned {db : DB} : ∀ (n : Nat) (st : Bool × Cursor),
    (st.1 = true → Positioned db st.2) →
    ((walkNext db n st).1 = true → Positioned db (walkNext db n st).2) := by
  intro n
  induction n with
  | zero => intro st h; exact h
  | succ n ih =>
    intro st h
    rw [walkNext]
    by_cases hok : st.1 = true
    · rw [if_pos hok]
      apply ih
      intro ht
      obtain ⟨hcs, k, e, hp, hraw, hv, hpos, hkey, _, hdp, hcsn, _, hmem⟩ :=
        next_true rfl ht
      obtain ⟨hcs0, hdp0, _⟩ := h hok
      refine ⟨by rw [hcsn]; exact hcs0, by rw [hdp]; exact hdp0, e.1, hpos, ?_⟩
      rw [hkey]
      simpa using hmem
    · rw [if_neg hok]
      intro ht
      cases ht

/-- `Cursor.Delete` after positioning preserves the invariant. -/
theorem inv_curDel {db : DB} (n : Nat) (hinv : Inv db) :
    Inv (applyOp db (.curDel n)) := by
  simp only [applyOp]
  by_cases hok : (walkNext db n ((db.cursor).first db)).1 = true
  · rw [if_pos hok]
    have hP0 : ((db.cursor).first db).1 = true →
        Positioned db ((db.cursor).first db).2 := first_positioned rfl
    have hP := walk_positioned n _ hP0 hok
    obtain ⟨v, sk, _, _, _, _, _, hinv2⟩ := cursor_del_spec hinv hP
    exact hinv2
  · rw [if_neg hok]
    exact hinv

/-- `Cursor.Delete` never touches the seq counter. -/
theorem counter_cursor_del (c : Cursor) (db : DB) :
    (seqC (c.del db).2.2).counter = (seqC db).counter := by
  rw [Cursor.del]
  simp only
  rcases hr : (c.dp.del (dataC db) c.key).1 with e | u
  · rcases hq : db.seqb with _ | bs <;> simp [seqC, hq]
  · by_cases hcs : c.csNil = true
    · rw [if_pos hcs]
      rcases hq : db.seqb with _ | bs <;> simp [seqC, hq]
    · rw [if_neg hcs]
      rcases hp : c.csPos with _ | sk
      · rcases hq : db.seqb with _ | bs <;> simp [seqC, hq]
      · rcases hq : db.seqb with _ | bs <;> simp [seqC, hq, Coll.del]

/-- Each operation raises the seq counter by at most one. -/
theorem counter_applyOp (db : DB) (op : Op) :
    (seqC (applyOp db op)).counter ≤ (seqC db).counter + 1 := by
  cases op with
  | put k v =>
    simp only [applyOp]
    rw [Bucket.Put]
    rcases hv : (dataC db).get k with _ | v0 <;> simp only []
    · rw [putFresh]
      by_cases hk : k = []
      · rw [if_pos hk]
        simp [seqC, Coll.put]
        exact Nat.mod_le _ _
      · rw [if_neg hk]
        simp [seqC, Coll.put]
        exact Nat.mod_le _ _
    · by_cases hvv : Value.IsValid v0 = true
      · rw [if_pos hvv, putFresh]
        by_cases hk : k = []
        · rw [if_pos hk]
          simp [seqC, Coll.put, Coll.del]
          exact Nat.mod_le _ _
        · rw [if_neg hk]
          simp [seqC, Coll.put, Coll.del]
          exact Nat.mod_le _ _
      · rw [if_neg hvv]
        simp [seqC]
  | del k =>
    simp only [applyOp]
    rcases hd : db.data with _ | bd
    · simp only [Bucket.Delete, hd]
      exact Nat.le_succ _
    · rcases hv : bd.get k with _ | v0
      · simp only [Bucket.Delete, hd, hv]
        exact Nat.le_succ _
      · by_cases hvv : Value.IsValid v0 = true
        · rcases hq : db.seqb with _ | bs
          · simp only [Bucket.Delete, hd, hv, if_pos hvv, hq]
            exact Nat.le_succ _
          · simp only [Bucket.Delete, hd, hv, if_pos hvv, hq]
            simp [seqC, hq, Coll.del]
        · simp only [Bucket.Delete, hd, hv, if_neg hvv]
          exact Nat.le_succ _
  | delSeq s =>
    simp only [applyOp]
    rw [Bucket.DeleteSeq]
    simp only
    by_cases hok : ((db.cursor).seek db s).1 = true
    · rw [if_pos hok]
      by_cases hne : ((db.cursor).seek db s).2.seq ≠ s
      · rw [if_pos hne]
        exact Nat.le_succ _
      · rw [if_neg hne]
        simp only
        rw [counter_cursor_del]
        exact Nat.le_succ _
    · rw [if_neg hok]
      exact Nat.le_succ _
  | curDel n =>
    simp only [applyOp]
    by_cases hok : (walkNext db n ((db.cursor).first db)).1 = true
    · rw [if_pos hok]
      rw [counter_cursor_del]
      exact Nat.le_succ _
    · rw [if_neg hok]
      exact Nat.le_succ _

/-- One successful operation preserves the invariant (no counter
overflow at this step). -/
theorem inv_applyOp {db : DB} {op : Op} (hinv : Inv db)
    (hovf : (seqC db).counter + 1 < 2 ^ 64) (hok : opOk db op = true) :
    Inv (applyOp db op) := by
  cases op with
  | put k v =>
    simp only [applyOp]
    rcases hr : Bucket.Put db k v with ⟨res, db'⟩
    rcases res with e | s
    · exfalso
      simp [opOk, hr] at hok
    · exact inv_put hinv hovf hr
  | del k => exact inv_del k hinv
  | delSeq s => exact inv_delSeq s hinv
  | curDel n => exact inv_curDel n hinv

/-- Any successfully-completed operation sequence starting from an
invariant state (with enough counter headroom for its length) ends in an
invariant state whose counter grew by at most the number of operations. -/
theorem inv_runOps : ∀ (ops : List Op) (db : DB), Inv db →
    runOk ops db = true →
    (seqC db).counter + ops.length < 2 ^ 64 →
    Inv (runOps ops db) ∧
      (seqC (runOps ops db)).counter ≤ (seqC db).counter + ops.length := by
  intro ops
  induction ops with
  | nil =>
    intro db hinv _ _
    exact ⟨hinv, Nat.le_add_right _ _⟩
  | cons o os ih =>
    intro db hinv hok hovf
    rw [runOk] at hok
    simp only [Bool.and_eq_true] at hok
    obtain ⟨hop, hrest⟩ := hok
    have hstep : (seqC db).counter + 1 < 2 ^ 64 := by
      have hl : (o :: os).length = os.length + 1 := by simp
      omega
    have hinv1 : Inv (applyOp db o) := inv_applyOp hinv hstep hop
    have hcnt1 : (seqC (applyOp db o)).counter ≤ (seqC db).counter + 1 :=
      counter_applyOp db o
    have hovf1 : (seqC (applyOp db o)).counter + os.length < 2 ^ 64 := by
      have hl : (o :: os).length = os.length + 1 := by simp
      omega
    obtain ⟨h1, h2⟩ := ih (applyOp db o) hinv1 hrest hovf1
    rw [runOps]
    refine ⟨h1, ?_⟩
    have hl : (o :: os).length = os.length + 1 := by simp
    omega

/-! ## Claim theorems -/

/-- C1: for every key `k` and payload `p`, after `Put(k, p)` returns
sequence number `s` with no error, `Get(k)` returns a valid Value whose
`Seq()` equals `s` and whose `Data()` equals `p`, and `GetSeq(s)` returns
`k`; on a fresh empty bucket the first `Put` returns `s = 1`. -/
theorem C1_put_get_getseq (db : DB) (k p : Bytes) (s : Nat) (db' : DB)
    (h : Bucket.Put db k p = (.ok s, db')) :
    (∃ v, Bucket.Get db' k = some v ∧ Value.IsValid v = true ∧
      Value.Seq v = s ∧ Value.Data v = p) ∧
    Bucket.GetSeq db' s = some k ∧
    (db = DB.empty → s = 1) := by
  obtain ⟨hget, hgs, hs, hcnt, hk⟩ := put_ok_get h
  have hslt : s < 2 ^ 64 := by
    rw [hs]
    exact Nat.mod_lt _ (by norm_num)
  refine ⟨⟨newValue s p, hget, ?_, ?_, data_newValue s p⟩, hgs, ?_⟩
  · rw [isValid_iff, newValue_length]
    omega
  · rw [seq_newValue, Nat.mod_eq_of_lt hslt]
  · intro he
    subst he
    rw [hs]
    norm_num [seqC, DB.empty, emptyColl]

/-- C1 witness: a concrete first `Put` on the empty bucket. -/
theorem C1_witness :
    (∃ v, Bucket.Get (Bucket.Put DB.empty [120] [118]).2 [120] = some v ∧
      Value.IsValid v = true ∧ Value.Seq v = 1 ∧ Value.Data v = [118]) ∧
    Bucket.GetSeq (Bucket.Put DB.empty [120] [118]).2 1 = some [120] ∧
    (DB.empty = DB.empty → 1 = 1) :=
  C1_put_get_getseq DB.empty [120] [118] 1 (Bucket.Put DB.empty [120] [118]).2
    (by decide)

/-- C7: for every sequence number `s` (a uint64) and payload `p`,
including empty and all-zero payloads, `encode(s, p)` has length
`8 + len(p)`, decoding its first 8 bytes big-endian yields `s`, and the
bytes after the first 8 equal `p`. -/
theorem C7_codec_roundtrip (s : Nat) (p : Bytes) (hs : s < 2 ^ 64) :
    (newValue s p).length = 8 + p.length ∧
    Value.Seq (newValue s p) = s ∧
    Value.Data (newValue s p) = p :=
  ⟨newValue_length s p,
   by rw [seq_newValue, Nat.mod_eq_of_lt hs],
   data_newValue s p⟩

/-- C7 witness: the round-trip at a concrete sequence number, for the
empty payload and an all-zero-byte payload. -/
theorem C7_witness :
    ((newValue 5 []).length = 8 + ([] : Bytes).length ∧
      Value.Seq (newValue 5 []) = 5 ∧ Value.Data (newValue 5 []) = [] : Prop) ∧
    ((newValue 300 [0, 0]).length = 8 + ([0, 0] : Bytes).length ∧
      Value.Seq (newValue 300 [0, 0]) = 300 ∧
      Value.Data (newValue 300 [0, 0]) = [0, 0] : Prop) :=
  ⟨C7_codec_roundtrip 5 [] (by norm_num),
   C7_codec_roundtrip 300 [0, 0] (by norm_num)⟩

/-- C4: `Delete(key)` fails with InvalidBucket when the "data" collection
does not exist; succeeds as a no-op when the key is absent; fails with
InvalidValue when the stored value is shorter than 8 bytes; fails with
InvalidBucket when the "seq" collection does not exist; otherwise removes
both index entries, so `Get(key)` and `GetSeq(prior seq)` are absent
afterwards. -/
theorem C4_delete_spec (db : DB) (k : Bytes) :
    (db.data = none → Bucket.Delete db k = (.error .invalidBucket, db)) ∧
    (∀ bd, db.data = some bd → bd.get k = none →
      Bucket.Delete db k = (.ok (), db)) ∧
    (∀ bd v, db.data = some bd → bd.get k = some v → v.length < 8 →
      Bucket.Delete db k = (.error .invalidValue, db)) ∧
    (∀ bd v, db.data = some bd → bd.get k = some v → 8 ≤ v.length →
      db.seqb = none → Bucket.Delete db k = (.error .invalidBucket, db)) ∧
    (∀ bd v bs, db.data = some bd → bd.get k = some v → 8 ≤ v.length →
      db.seqb = some bs →
      (Bucket.Delete db k).1 = .ok () ∧
      Bucket.Get (Bucket.Delete db k).2 k = none ∧
      Bucket.GetSeq (Bucket.Delete db k).2 (Value.Seq v) = none) := by
  refine ⟨?_, ?_, ?_, ?_, ?_⟩
  · intro hd
    simp [Bucket.Delete, hd]
  · intro bd hd hv
    simp [Bucket.Delete, hd, hv]
  · intro bd v hd hv hlen
    have hvv : ¬ Value.IsValid v = true := by
      rw [isValid_iff]
      omega
    simp [Bucket.Delete, hd, hv, hvv]
  · intro bd v hd hv hlen hq
    have hvv : Value.IsValid v = true := isValid_iff.mpr hlen
    simp [Bucket.Delete, hd, hv, hvv, hq]
  · intro bd v bs hd hv hlen hq
    have hvv : Value.IsValid v = true := isValid_iff.mpr hlen
    have hdel : Bucket.Delete db k
        = (.ok (), ⟨some (bd.del k), some (bs.del (Value.seqBytes v))⟩) := by
      simp [Bucket.Delete, hd, hv, hvv, hq]
    rw [hdel]
    refine ⟨rfl, ?_, ?_⟩
    · rw [Bucket.Get]
      exact get_del_self _ _
    · rw [Bucket.GetSeq]
      show Coll.get _ (Value.seqBytes (newValue (Value.Seq v) [])) = _
      rw [seqBytes_newValue, seq_eq_decode_seqBytes,
        u64be_decodeSeq (seqBytes_length hlen)]
      exact get_del_self _ _

/-- C4 witness: the five `Delete` behaviours at concrete states. -/
theorem C4_witness :
    (Bucket.Delete DB.empty [5] = (.error .invalidBucket, DB.empty)) ∧
    (Bucket.Delete ⟨some ⟨[([7], newValue 1 [])], 0⟩, some ⟨[(u64be 1, [7])], 1⟩⟩ [5]
      = (.ok (), ⟨some ⟨[([7], newValue 1 [])], 0⟩, some ⟨[(u64be 1, [7])], 1⟩⟩)) ∧
    (Bucket.Delete ⟨some ⟨[([7], [1])], 0⟩, none⟩ [7]
      = (.error .invalidValue, ⟨some ⟨[([7], [1])], 0⟩, none⟩)) ∧
    (Bucket.Delete ⟨some ⟨[([7], newValue 1 [])], 0⟩, none⟩ [7]
      = (.error .invalidBucket, ⟨some ⟨[([7], newValue 1 [])], 0⟩, none⟩)) ∧
    ((Bucket.Delete ⟨some ⟨[([7], newValue 1 [9])], 0⟩, some ⟨[(u64be 1, [7])], 1⟩⟩ [7]).1
        = .ok () ∧
      Bucket.Get (Bucket.Delete ⟨some ⟨[([7], newValue 1 [9])], 0⟩,
        some ⟨[(u64be 1, [7])], 1⟩⟩ [7]).2 [7] = none ∧
      Bucket.GetSeq (Bucket.Delete ⟨some ⟨[([7], newValue 1 [9])], 0⟩,
        some ⟨[(u64be 1, [7])], 1⟩⟩ [7]).2 (Value.Seq (newValue 1 [9])) = none) :=
  ⟨(C4_delete_spec DB.empty [5]).1 rfl,
   (C4_delete_spec _ [5]).2.1 _ rfl (by decide),
   (C4_delete_spec _ [7]).2.2.1 _ [1] rfl (by decide) (by decide),
   (C4_delete_spec _ [7]).2.2.2.1 _ (newValue 1 []) rfl (by decide) (by decide) rfl,
   (C4_delete_spec _ [7]).2.2.2.2 _ (newValue 1 [9]) _ rfl (by decide) (by decide) rfl⟩

/-- C10: for a cursor obtained from a bucket whose "seq" collection has
never been created, every positioning call returns false without error,
but `Cursor.Delete` reaches the unguarded nil seq cursor (or an
unpositioned data-cursor delete) and panics — modelled as `Err.crash`. -/
theorem C10_nil_seq_cursor (db : DB) (hq : db.seqb = none) :
    (∀ s : Nat, ((db.cursor).seek db s).1 = false ∧
      ((db.cursor).seek db s).2.err = none) ∧
    ((db.cursor).first db).1 = false ∧ ((db.cursor).first db).2.err = none ∧
    ((db.cursor).last db).1 = false ∧ ((db.cursor).last db).2.err = none ∧
    ((db.cursor).next db).1 = false ∧ ((db.cursor).next db).2.err = none ∧
    ((db.cursor).prev db).1 = false ∧ ((db.cursor).prev db).2.err = none ∧
    ((db.cursor).del db).1 = .error .crash := by
  have hnil : (db.cursor).csNil = true := by
    simp [DB.cursor, hq]
  refine ⟨?_, ?_, ?_, ?_, ?_, ?_, ?_, ?_, ?_, ?_⟩
  · intro s
    rw [Cursor.seek, if_pos hnil]
    exact ⟨rfl, rfl⟩
  · rw [Cursor.first, if_pos hnil]
  · rw [Cursor.first, if_pos hnil]
    rfl
  · rw [Cursor.last, if_pos hnil]
  · rw [Cursor.last, if_pos hnil]
    rfl
  · rw [Cursor.next, if_pos hnil]
  · rw [Cursor.next, if_pos hnil]
    rfl
  · rw [Cursor.prev, if_pos hnil]
  · rw [Cursor.prev, if_pos hnil]
    rfl
  · -- Cursor.Delete crashes
    simp only [Cursor.del]
    rcases hd : db.data with _ | bd
    · -- data cursor also nil: pointer no-ops, then the nil seq cursor is
      -- dereferenced
      have hdp : ((db.cursor).dp).del (dataC db) (db.cursor).key
          = (.ok (), (db.cursor).dp, dataC db) := by
        rw [Pointer.del, Pointer.move, if_pos (by simp [DB.cursor, hd])]
        simp
      rw [hdp]
      simp only
      rw [if_pos hnil]
    · -- data cursor exists: the fresh pointer spuriously cache-hits on the
      -- nil key and deletes at an unpositioned data cursor (bolt panic)
      have hdp : ((db.cursor).dp).del (dataC db) (db.cursor).key
          = (.error .crash, (db.cursor).dp, dataC db) := by
        rw [Pointer.del, Pointer.move,
          if_neg (by simp [DB.cursor, hd]),
          if_pos (show (db.cursor).dp.key = (db.cursor).key from rfl)]
        simp [DB.cursor]
      rw [hdp]

/-- `Bucket.Get` seen through the current data collection. -/
theorem get_dataC {db : DB} {k v : Bytes} (h : Bucket.Get db k = some v) :
    (dataC db).get k = some v := by
  rcases hd : db.data with _ | bd
  · rw [Bucket.Get, hd] at h
    cases h
  · rw [Bucket.Get, hd] at h
    simpa [dataC, hd] using h

/-- The "seq" sub-bucket exists whenever a seek into it finds an entry. -/
theorem seqb_isSome_of_seekL {db : DB} {x : Bytes} {e : Entry}
    (h : seekL x (seqC db).entries = some e) : db.seqb.isSome = true := by
  rcases hq : db.seqb with _ | bs
  · rw [show seqC db = emptyColl from by simp [seqC, hq]] at h
    simp [seekL, emptyColl] at h
  · rfl

/-- `Seek` on an exhausted seq index (or a missing one) leaves the cursor
unchanged and returns false. -/
theorem seek_miss {db : DB} {s : Nat}
    (h : seekL (u64be s) (seqC db).entries = none) :
    (db.cursor).seek db s = (false, db.cursor) := by
  rw [Cursor.seek]
  by_cases hn : (db.cursor).csNil = true
  · rw [if_pos hn]
  · rw [if_neg hn]
    show Cursor.sync _ ((seqC db).seek (Value.seqBytes (newValue s []))) = _
    rw [seqBytes_newValue,
      show (seqC db).seek (u64be s) = seekL (u64be s) (seqC db).entries from rfl, h]
    rw [Cursor.sync]
    simp [DB.cursor]

/-- `Seek` landing on an entry: a valid 8-byte key positions the cursor; a
short key sets the sticky `InvalidKey` error. -/
theorem seek_hit {db : DB} {s : Nat} {e : Entry}
    (h : seekL (u64be s) (seqC db).entries = some e) :
    (8 ≤ e.1.length →
      (db.cursor).seek db s =
        (true, { db.cursor with csPos := some e.1, seq := Value.Seq e.1, key := e.2 })) ∧
    (e.1.length < 8 →
      (db.cursor).seek db s =
        (false, { db.cursor with csPos := some e.1, err := some Err.invalidKey })) := by
  have hsome : db.seqb.isSome = true := seqb_isSome_of_seekL h
  have hn : ¬ (db.cursor).csNil = true := by
    simp [DB.cursor]
    rcases hq : db.seqb with _ | bs
    · rw [hq] at hsome
      cases hsome
    · simp
  have hseek : (seqC db).seek (Value.seqBytes (newValue s [])) = some e := by
    rw [seqBytes_newValue]
    exact h
  constructor
  · intro hlen
    rw [Cursor.seek, if_neg hn]
    simp only [hseek, Cursor.sync, if_pos (isValid_iff.mpr hlen)]
    simp
  · intro hlen
    have hvv : ¬ Value.IsValid e.1 = true := by
      rw [isValid_iff]
      omega
    rw [Cursor.seek, if_neg hn]
    simp only [hseek, Cursor.sync, if_neg hvv]
    simp

/-- The seq index after `Cursor.Delete`: unchanged, or exactly the entry
at the cursor's position removed. -/
theorem cursor_del_seqb (c : Cursor) (db : DB) :
    (seqC (c.del db).2.2).entries = (seqC db).entries ∨
    (∃ sk, c.csPos = some sk ∧
      (seqC (c.del db).2.2).entries = eraseL sk (seqC db).entries) := by
  simp only [Cursor.del]
  rcases hr : (c.dp.del (dataC db) c.key).1 with e | u
  · left
    rcases hq : db.seqb with _ | bs <;> simp [seqC, hq]
  · by_cases hcs : c.csNil = true
    · rw [if_pos hcs]
      left
      rcases hq : db.seqb with _ | bs <;> simp [seqC, hq]
    · rw [if_neg hcs]
      rcases hp : c.csPos with _ | sk
      · left
        rcases hq : db.seqb with _ | bs <;> simp [seqC, hq]
      · right
        refine ⟨sk, rfl, ?_⟩
        rcases hq : db.seqb with _ | bs
        · simp [seqC, hq, eraseL, emptyColl]
        · simp [seqC, hq, Coll.del]

/-- `DeleteSeq` when nothing is at-or-after `s`: silent no-op. -/
theorem deleteSeq_miss {db : DB} {s : Nat}
    (h : seekL (u64be s) (seqC db).entries = none) :
    Bucket.DeleteSeq db s = (.ok (), db) := by
  rw [Bucket.DeleteSeq]
  simp only [seek_miss h]
  rw [if_neg (by simp)]
  simp [DB.cursor]

/-- `DeleteSeq` when the seek overshoots to a different sequence: silent
no-op. -/
theorem deleteSeq_overshoot {db : DB} {s : Nat} {e : Entry}
    (hsl : seekL (u64be s) (seqC db).entries = some e) (hlen : 8 ≤ e.1.length)
    (hne : Value.Seq e.1 ≠ s) :
    Bucket.DeleteSeq db s = (.ok (), db) := by
  have hc' := (seek_hit hsl).1 hlen
  rw [Bucket.DeleteSeq]
  simp only [hc']
  rw [if_pos trivial, if_pos hne]

/-- `DeleteSeq` when the landed seq key fails to decode: the `InvalidKey`
error is propagated. -/
theorem deleteSeq_decode_err {db : DB} {s : Nat} {e : Entry}
    (hsl : seekL (u64be s) (seqC db).entries = some e) (hlen : e.1.length < 8) :
    Bucket.DeleteSeq db s = (.error .invalidKey, db) := by
  have hc' := (seek_hit hsl).2 hlen
  rw [Bucket.DeleteSeq]
  simp only [hc']
  rw [if_neg (by simp)]

/-- The cursor state after a positioning step landed on entry `e`. -/
def stepCursor (c : Cursor) (e : Entry) : Cursor :=
  { c with csPos := some e.1, seq := Value.Seq e.1, key := e.2 }

/-- The cursor state after a seek that landed on entry `e`. -/
def seekCursor (db : DB) (e : Entry) : Cursor :=
  { db.cursor with csPos := some e.1, seq := Value.Seq e.1, key := e.2 }

/-- `DeleteSeq` when the seek lands exactly: it runs `Cursor.Delete` from
the positioned cursor. -/
theorem deleteSeq_hit {db : DB} {s : Nat} {e : Entry}
    (hsl : seekL (u64be s) (seqC db).entries = some e) (hlen : 8 ≤ e.1.length)
    (heq : Value.Seq e.1 = s) :
    Bucket.DeleteSeq db s =
      (((seekCursor db e).del db).1, ((seekCursor db e).del db).2.2) := by
  have hc' := (seek_hit hsl).1 hlen
  rw [Bucket.DeleteSeq]
  simp only [hc']
  rw [if_pos trivial, if_neg (by simpa using heq)]
  rfl

/-- C5: `DeleteSeq(s)` deletes both index entries exactly when an entry
with sequence `s` exists; with nothing at-or-after `s` it is a silent
no-op; when the seek overshoots to a greater sequence it is a silent no-op
and never deletes the wrong entry; a seq-key decode error (`InvalidKey`)
from the seek is propagated. -/
theorem C5_deleteSeq_spec (db : DB) (s : Nat) :
    (Inv db → s < 2 ^ 64 → ∀ k, Bucket.GetSeq db s = some k →
      (Bucket.DeleteSeq db s).1 = .ok () ∧
      Bucket.Get (Bucket.DeleteSeq db s).2 k = none ∧
      Bucket.GetSeq (Bucket.DeleteSeq db s).2 s = none) ∧
    (seekL (u64be s) (seqC db).entries = none →
      Bucket.DeleteSeq db s = (.ok (), db)) ∧
    (∀ e, seekL (u64be s) (seqC db).entries = some e → 8 ≤ e.1.length →
      Value.Seq e.1 ≠ s → Bucket.DeleteSeq db s = (.ok (), db)) ∧
    (∀ e, seekL (u64be s) (seqC db).entries = some e → e.1.length < 8 →
      Bucket.DeleteSeq db s = (.error .invalidKey, db)) ∧
    (∀ e ∈ (seqC db).entries, Value.Seq e.1 ≠ s →
      e ∈ (seqC (Bucket.DeleteSeq db s).2).entries) := by
  refine ⟨?_, fun h => deleteSeq_miss h,
    fun e hsl hlen hne => deleteSeq_overshoot hsl hlen hne,
    fun e hsl hlen => deleteSeq_decode_err hsl hlen, ?_⟩
  · -- exact hit: delete both index entries
    intro hinv hs k hgs
    have hbs : ∃ bs, db.seqb = some bs := by
      rcases hq : db.seqb with _ | bs
      · rw [Bucket.GetSeq, hq] at hgs
        cases hgs
      · exact ⟨bs, rfl⟩
    obtain ⟨bs, hq⟩ := hbs
    have hget : (seqC db).get (u64be s) = some k := by
      rw [Bucket.GetSeq, hq] at hgs
      rw [show Value.seqBytes (newValue s []) = u64be s from seqBytes_newValue s []] at hgs
      show (seqC db).get (u64be s) = some k
      rw [show seqC db = bs from by simp [seqC, hq]]
      exact hgs
    have hsl : seekL (u64be s) (seqC db).entries = some (u64be s, k) :=
      seekL_of_lookup hinv.2.2.1 hget
    have hseqv : Value.Seq (u64be s) = s := by
      rw [Value.Seq, decodeSeq_u64be, Nat.mod_eq_of_lt hs]
    have hds := deleteSeq_hit hsl (by rw [u64be_length]) hseqv
    set c' : Cursor := seekCursor db (u64be s, k) with hc'def
    have hP : Positioned db c' := by
      refine ⟨?_, rfl, u64be s, rfl, ?_⟩
      · show (db.cursor).csNil = false
        simp [DB.cursor, hq]
      · show (u64be s, k) ∈ (seqC db).entries
        exact lookupL_mem hget
    obtain ⟨v, sk, hpos, hgv, hsv, hok, hdb, hinv2⟩ := cursor_del_spec hinv hP
    have hsk : sk = u64be s := by
      have h2 : (some (u64be s) : Option Bytes) = some sk := by
        rw [← hpos]
        rfl
      cases h2
      rfl
    subst hsk
    rw [hds]
    refine ⟨hok, ?_, ?_⟩
    · show Bucket.Get (c'.del db).2.2 k = none
      rw [hdb, Bucket.Get]
      exact get_del_self _ _
    · show Bucket.GetSeq (c'.del db).2.2 s = none
      rw [hdb, Bucket.GetSeq]
      show Coll.get _ (Value.seqBytes (newValue s [])) = _
      rw [seqBytes_newValue]
      exact get_del_self _ _
  · -- never deletes an entry with a different sequence number
    intro e hmem hne
    rcases hsl : seekL (u64be s) (seqC db).entries with _ | e0
    · rw [deleteSeq_miss hsl]
      exact hmem
    · by_cases hlen : 8 ≤ e0.1.length
      · by_cases heq : Value.Seq e0.1 = s
        · rw [deleteSeq_hit hsl hlen heq]
          have hne0 : e.1 ≠ e0.1 := by
            intro hk
            rw [hk, heq] at hne
            exact hne rfl
          rcases cursor_del_seqb (seekCursor db e0) db
            with hsame | ⟨sk, hpos, hent⟩
          · show e ∈ (seqC _).entries
            rw [hsame]
            exact hmem
          · have hsk : sk = e0.1 := by
              have h2 : (some e0.1 : Option Bytes) = some sk := by
                rw [← hpos]
                rfl
              cases h2
              rfl
            subst hsk
            show e ∈ (seqC _).entries
            rw [hent]
            exact List.mem_filter.mpr ⟨hmem, by simpa using hne0⟩
        · rw [deleteSeq_overshoot hsl hlen heq]
          exact hmem
      · rw [deleteSeq_decode_err hsl (by omega)]
        exact hmem

/-- A concrete two-entry bucket used by witnesses:
`Put("x","v") → 1` then `Put("a",[1]) → 2`. -/
def dbW : DB := (Bucket.Put (Bucket.Put DB.empty [120] [118]).2 [97] [1]).2

theorem inv_dbW : Inv dbW :=
  (inv_runOps [Op.put [120] [118], Op.put [97] [1]] DB.empty inv_empty
    (by decide) (by norm_num [seqC, DB.empty, emptyColl])).1

/-- C5 witness: exact hit, miss, overshoot, decode error, and survival of
the other entry, at concrete states. -/
theorem C5_witness :
    ((Bucket.DeleteSeq dbW 1).1 = .ok () ∧
      Bucket.Get (Bucket.DeleteSeq dbW 1).2 [120] = none ∧
      Bucket.GetSeq (Bucket.DeleteSeq dbW 1).2 1 = none) ∧
    (Bucket.DeleteSeq dbW 5 = (.ok (), dbW)) ∧
    (Bucket.DeleteSeq dbW 0 = (.ok (), dbW)) ∧
    (Bucket.DeleteSeq (⟨some emptyColl, some ⟨[([3], [99])], 1⟩⟩ : DB) 1
      = (.error .invalidKey, ⟨some emptyColl, some ⟨[([3], [99])], 1⟩⟩)) ∧
    ((u64be 2, ([97] : Bytes)) ∈ (seqC (Bucket.DeleteSeq dbW 1).2).entries) :=
  ⟨(C5_deleteSeq_spec dbW 1).1 inv_dbW (by norm_num) [120] (by decide),
   (C5_deleteSeq_spec dbW 5).2.1 (by decide),
   (C5_deleteSeq_spec dbW 0).2.2.1 (u64be 1, [120]) (by decide)
     (by rw [u64be_length]) (by decide),
   (C5_deleteSeq_spec _ 1).2.2.2.1 ([3], [99]) (by decide) (by decide),
   (C5_deleteSeq_spec dbW 1).2.2.2.2 (u64be 2, [97]) (by decide) (by decide)⟩

/-- After an overwrite, the retired sequence number's seq-index entry is
gone. -/
theorem put_overwrite_getseq {db : DB} {key p2 vold : Bytes} {s : Nat} {db' : DB}
    (hget : (dataC db).get key = some vold)
    (h : Bucket.Put db key p2 = (.ok s, db')) (t : Nat)
    (ht : u64be t = Value.seqBytes vold) (hts : u64be t ≠ u64be s) :
    Bucket.GetSeq db' t = none := by
  rw [Bucket.Put] at h
  rw [hget] at h
  simp only [] at h
  by_cases hvv : Value.IsValid vold = true
  · rw [if_pos hvv] at h
    obtain ⟨hk, hs, hdb⟩ := putFresh_ok h
    subst hdb
    rw [Bucket.GetSeq]
    show Coll.get _ (Value.seqBytes (newValue t [])) = _
    rw [seqBytes_newValue]
    show lookupL (insertL (Value.seqBytes (newValue s p2)) key _) (u64be t) = none
    rw [show Value.seqBytes (newValue s p2) = u64be s from seqBytes_newValue s p2]
    show lookupL (insertL (u64be s) key _) (u64be t) = none
    rw [lookupL_insert_ne _ _ _ hts]
    show lookupL (eraseL (Value.seqBytes vold) (seqC db).entries) (u64be t) = none
    rw [ht]
    exact lookupL_erase_self _ _
  · rw [if_neg hvv] at h
    injection h with h1 _
    injection h1

/-- C3: overwriting a key consumes a fresh, strictly larger sequence
number; the old sequence number resolves to nothing, the new one resolves
to the key, and `Get` yields the new payload; every `Put` consumes exactly
one new sequence number. -/
theorem C3_overwrite (db : DB) (k p1 p2 : Bytes) (s1 s2 : Nat) (db1 db2 : DB)
    (hovf : (seqC db).counter + 2 < 2 ^ 64)
    (h1 : Bucket.Put db k p1 = (.ok s1, db1))
    (h2 : Bucket.Put db1 k p2 = (.ok s2, db2)) :
    s1 < s2 ∧
    Bucket.GetSeq db2 s1 = none ∧
    Bucket.GetSeq db2 s2 = some k ∧
    (∃ v, Bucket.Get db2 k = some v ∧ Value.Data v = p2) ∧
    (seqC db1).counter = (seqC db).counter + 1 ∧ s1 = (seqC db1).counter ∧
    (seqC db2).counter = (seqC db1).counter + 1 ∧ s2 = (seqC db2).counter := by
  obtain ⟨hget1, hgs1, hs1, hcnt1, hk1⟩ := put_ok_get h1
  obtain ⟨hget2, hgs2, hs2, hcnt2, hk2⟩ := put_ok_get h2
  have hs1' : s1 = (seqC db).counter + 1 := by
    rw [hs1, Nat.mod_eq_of_lt (by omega)]
  have hs2' : s2 = s1 + 1 := by
    rw [hs2, hcnt1, hs1', Nat.mod_eq_of_lt (by omega)]
  have hlt : s1 < s2 := by omega
  have hlt1 : s1 < 2 ^ 64 := by omega
  have hlt2 : s2 < 2 ^ 64 := by omega
  refine ⟨hlt, ?_, hgs2, ⟨newValue s2 p2, hget2, data_newValue _ _⟩, ?_, ?_, ?_, ?_⟩
  · -- the retired sequence number is gone
    refine put_overwrite_getseq (get_dataC hget1) h2 s1 ?_ ?_
    · rw [seqBytes_newValue]
    · intro he
      exact absurd (u64be_inj hlt1 hlt2 he) (by omega)
  · rw [hcnt1, hs1']
  · omega
  · rw [hcnt2, hs2', hs1', hcnt1, hs1']
  · omega

/-- Witness states for C3: `Put("x","v") → 1`, then overwrite
`Put("x",[99]) → 2`. -/
def dbO1 : DB := (Bucket.Put DB.empty [120] [118]).2

/-- The overwrite state for the C3 witness. -/
def dbO2 : DB := (Bucket.Put dbO1 [120] [99]).2

/-- C3 witness: a concrete overwrite on a fresh bucket. -/
theorem C3_witness :
    1 < 2 ∧
    Bucket.GetSeq dbO2 1 = none ∧
    Bucket.GetSeq dbO2 2 = some [120] ∧
    (∃ v, Bucket.Get dbO2 [120] = some v ∧ Value.Data v = [99]) ∧
    (seqC dbO1).counter = (seqC DB.empty).counter + 1 ∧ 1 = (seqC dbO1).counter ∧
    (seqC dbO2).counter = (seqC dbO1).counter + 1 ∧ 2 = (seqC dbO2).counter :=
  C3_overwrite DB.empty [120] [118] [99] 1 2 dbO1 dbO2
    (by norm_num [seqC, DB.empty, emptyColl]) (by decide) (by decide)

/-- The "seq" sub-bucket exists whenever a lookup in it succeeds. -/
theorem seqb_some_of_get {db : DB} {x k : Bytes}
    (h : (seqC db).get x = some k) : ∃ bs, db.seqb = some bs := by
  rcases hq : db.seqb with _ | bs
  · rw [show seqC db = emptyColl from by simp [seqC, hq]] at h
    simp [emptyColl, Coll.get, lookupL] at h
  · exact ⟨bs, rfl⟩

/-- C2: after any sequence of successfully-completed `Put`, `Delete`,
`DeleteSeq`, and `Cursor.Delete` operations from an empty bucket, the two
indices mirror each other: every data entry's encoded sequence number maps
back to its key in the seq index, every seq entry maps to a data entry
encoding exactly that sequence number, and no two live entries share a
sequence number. -/
theorem C2_dual_index_invariant (ops : List Op)
    (hok : runOk ops DB.empty = true) (hlen : ops.length < 2 ^ 64) :
    (∀ k v, Bucket.Get (runOps ops DB.empty) k = some v →
      8 ≤ v.length ∧
      Bucket.GetSeq (runOps ops DB.empty) (Value.Seq v) = some k) ∧
    (∀ s k, s < 2 ^ 64 → Bucket.GetSeq (runOps ops DB.empty) s = some k →
      ∃ v, Bucket.Get (runOps ops DB.empty) k = some v ∧ Value.Seq v = s) ∧
    (∀ k1 k2 v1 v2, Bucket.Get (runOps ops DB.empty) k1 = some v1 →
      Bucket.Get (runOps ops DB.empty) k2 = some v2 →
      Value.Seq v1 = Value.Seq v2 → k1 = k2) := by
  have hcnt : (seqC DB.empty).counter + ops.length < 2 ^ 64 := by
    have h0 : (seqC DB.empty).counter = 0 := rfl
    omega
  have hinv := (inv_runOps ops DB.empty inv_empty hok hcnt).1
  set db := runOps ops DB.empty with hdbdef
  obtain ⟨hiff, hsd, hss, ⟨hm1, hm2⟩, hbnd⟩ := hinv
  refine ⟨?_, ?_, ?_⟩
  · intro k v hget
    have hget' := get_dataC hget
    have hmem := lookupL_mem hget'
    obtain ⟨hne, hlen8, hsget⟩ := hm1 (k, v) hmem
    refine ⟨hlen8, ?_⟩
    obtain ⟨bs, hq⟩ := seqb_some_of_get hsget
    rw [Bucket.GetSeq, hq]
    have hbs : seqC db = bs := by simp [seqC, hq]
    rw [← hbs]
    show (seqC db).get (Value.seqBytes (newValue (Value.Seq v) [])) = some k
    rw [seqBytes_newValue, seq_eq_decode_seqBytes,
      u64be_decodeSeq (seqBytes_length hlen8)]
    exact hsget
  · intro s k hs hgs
    rcases hq : db.seqb with _ | bs
    · rw [Bucket.GetSeq, hq] at hgs
      cases hgs
    · rw [Bucket.GetSeq, hq] at hgs
      have hget : (seqC db).get (u64be s) = some k := by
        rw [show seqC db = bs from by simp [seqC, hq]]
        rw [show Value.seqBytes (newValue s []) = u64be s
          from seqBytes_newValue s []] at hgs
        exact hgs
      have hmem := lookupL_mem hget
      obtain ⟨hlen8, v, hgv0, hsv0⟩ := hm2 (u64be s, k) hmem
      have hgv : (dataC db).get k = some v := hgv0
      have hsv : Value.seqBytes v = u64be s := hsv0
      refine ⟨v, ?_, ?_⟩
      · rcases hd : db.data with _ | bd
        · rw [show dataC db = emptyColl from by simp [dataC, hd]] at hgv
          simp [emptyColl, Coll.get, lookupL] at hgv
        · rw [Bucket.Get, hd]
          rw [show dataC db = bd from by simp [dataC, hd]] at hgv
          exact hgv
      · rw [seq_eq_decode_seqBytes, hsv, decodeSeq_u64be, Nat.mod_eq_of_lt hs]
  · intro k1 k2 v1 v2 hg1 hg2 hseq
    have hm11 := hm1 (k1, v1) (lookupL_mem (get_dataC hg1))
    have hm12 := hm1 (k2, v2) (lookupL_mem (get_dataC hg2))
    obtain ⟨-, hl1, hs1⟩ := hm11
    obtain ⟨-, hl2, hs2⟩ := hm12
    have hsb : Value.seqBytes v1 = Value.seqBytes v2 := by
      rw [← u64be_decodeSeq (seqBytes_length hl1),
        ← u64be_decodeSeq (seqBytes_length hl2),
        ← seq_eq_decode_seqBytes, ← seq_eq_decode_seqBytes, hseq]
    rw [hsb] at hs1
    exact Option.some.inj (hs1.symm.trans hs2)

/-- A concrete operation sequence for the C2 witness: two inserts, an
overwrite, a `DeleteSeq`, a `Delete` and a positioned `Cursor.Delete`. -/
def opsW : List Op :=
  [Op.put [120] [118], Op.put [97] [1], Op.put [120] [99],
   Op.delSeq 2, Op.put [98] [2], Op.del [98], Op.curDel 0]

/-- C2 witness: a concrete successful sequence of puts, a `DeleteSeq` and
a `Cursor.Delete`. -/
theorem C2_witness :
    (∀ k v, Bucket.Get (runOps opsW DB.empty) k = some v →
      8 ≤ v.length ∧
      Bucket.GetSeq (runOps opsW DB.empty) (Value.Seq v) = some k) ∧
    (∀ s k, s < 2 ^ 64 → Bucket.GetSeq (runOps opsW DB.empty) s = some k →
      ∃ v, Bucket.Get (runOps opsW DB.empty) k = some v ∧ Value.Seq v = s) ∧
    (∀ k1 k2 v1 v2, Bucket.Get (runOps opsW DB.empty) k1 = some v1 →
      Bucket.Get (runOps opsW DB.empty) k2 = some v2 →
      Value.Seq v1 = Value.Seq v2 → k1 = k2) :=
  C2_dual_index_invariant opsW (by decide) (by norm_num [opsW])

/-- A bucket whose seq index holds a corrupt (1-byte) key followed by a
valid entry: `First` hits the decode error, `Next` then succeeds. -/
def dbC8 : DB := ⟨some emptyColl, some ⟨[([0], [99]), (u64be 5, [7])], 5⟩⟩

/-- C8 counterexample: a positioning call (`Next`) succeeds, yet `Err()`
still reports the decode error recorded by the earlier `First` — the
error field is sticky, so `Err()` is not scoped to the most recent
positioning call. -/
theorem C8_counterexample :
    ((((dbC8.cursor).first dbC8).2.next dbC8).1 = true ∧
      (((dbC8.cursor).first dbC8).2.next dbC8).2.err = some Err.invalidKey) ∧
    ((dbC8.cursor).first dbC8).1 = false ∧
    (((dbC8.cursor).first dbC8).2).err = some Err.invalidKey := by
  refine ⟨⟨?_, ?_⟩, ?_, ?_⟩ <;> decide

/-- One `sync` step's effect on the sticky error field: success leaves it
untouched; otherwise it is either untouched (plain exhaustion) or set to
`InvalidKey` with a false return (decode failure). -/
theorem sync_err_cases (c : Cursor) (raw : Option Entry) :
    ((Cursor.sync c raw).1 = true → (Cursor.sync c raw).2.err = c.err) ∧
    ((Cursor.sync c raw).2.err = c.err ∨
      ((Cursor.sync c raw).2.err = some Err.invalidKey ∧
        (Cursor.sync c raw).1 = false)) := by
  rcases raw with _ | e
  · exact ⟨fun _ => rfl, Or.inl rfl⟩
  · by_cases hv : Value.IsValid e.1 = true
    · constructor
      · intro _
        simp [Cursor.sync, hv]
      · left
        simp [Cursor.sync, hv]
    · constructor
      · intro ht
        simp [Cursor.sync, hv] at ht
      · right
        simp [Cursor.sync, hv]

/-- C8 (amended): the cursor's error field starts out empty and records
the last decode failure of any positioning call since the cursor's
creation — it is sticky, never cleared.  A positioning call that succeeds
never changes it, and a call that returns false either leaves it
unchanged (plain exhaustion) or sets it to `InvalidKey` (corruption), so
on a cursor with no previously recorded error, `Err()` distinguishes
exhaustion from corruption. -/
theorem C8_err_amended (db : DB) (c : Cursor) :
    ((db.cursor).err = none) ∧
    (∀ s : Nat, ((c.seek db s).1 = true → (c.seek db s).2.err = c.err) ∧
      ((c.seek db s).2.err = c.err ∨
        ((c.seek db s).2.err = some Err.invalidKey ∧ (c.seek db s).1 = false))) ∧
    (((c.first db).1 = true → (c.first db).2.err = c.err) ∧
      ((c.first db).2.err = c.err ∨
        ((c.first db).2.err = some Err.invalidKey ∧ (c.first db).1 = false))) ∧
    (((c.last db).1 = true → (c.last db).2.err = c.err) ∧
      ((c.last db).2.err = c.err ∨
        ((c.last db).2.err = some Err.invalidKey ∧ (c.last db).1 = false))) ∧
    (((c.next db).1 = true → (c.next db).2.err = c.err) ∧
      ((c.next db).2.err = c.err ∨
        ((c.next db).2.err = some Err.invalidKey ∧ (c.next db).1 = false))) ∧
    (((c.prev db).1 = true → (c.prev db).2.err = c.err) ∧
      ((c.prev db).2.err = c.err ∨
        ((c.prev db).2.err = some Err.invalidKey ∧ (c.prev db).1 = false))) := by
  refine ⟨rfl, ?_, ?_, ?_, ?_, ?_⟩
  · intro s
    rw [Cursor.seek]
    by_cases hn : c.csNil = true
    · rw [if_pos hn]
      exact ⟨fun _ => rfl, Or.inl rfl⟩
    · rw [if_neg hn]
      exact sync_err_cases _ _
  · rw [Cursor.first]
    by_cases hn : c.csNil = true
    · rw [if_pos hn]
      exact ⟨fun _ => rfl, Or.inl rfl⟩
    · rw [if_neg hn]
      exact sync_err_cases _ _
  · rw [Cursor.last]
    by_cases hn : c.csNil = true
    · rw [if_pos hn]
      exact ⟨fun _ => rfl, Or.inl rfl⟩
    · rw [if_neg hn]
      exact sync_err_cases _ _
  · rw [Cursor.next]
    by_cases hn : c.csNil = true
    · rw [if_pos hn]
      exact ⟨fun _ => rfl, Or.inl rfl⟩
    · rw [if_neg hn]
      exact sync_err_cases _ _
  · rw [Cursor.prev]
    by_cases hn : c.csNil = true
    · rw [if_pos hn]
      exact ⟨fun _ => rfl, Or.inl rfl⟩
    · rw [if_neg hn]
      exact sync_err_cases _ _

/-- C8 witness: the amended statement at the concrete corrupt bucket — the
successful `Next` preserves the previously recorded sticky error. -/
theorem C8_witness :
    (((dbC8.cursor).first dbC8).2.next dbC8).2.err
      = (((dbC8.cursor).first dbC8).2).err :=
  ((C8_err_amended dbC8 ((dbC8.cursor).first dbC8).2).2.2.2.2.1).1 (by decide)

/-!
## The always-miss pointer variant (C9)

Modelled from the spec: "[the CachedPointer] is purely a performance
optimization and may be omitted (always-miss) without breaking
correctness".  The variant performs the store seek on every call instead
of first consulting the cache; everything else is identical to
`Pointer.move`.
-/

/-- Modelled from the spec: `pointer.move` without the cache-hit
short-circuit — it always seeks. -/
def Pointer.moveMiss (p : Pointer) (d : Coll) (k : Bytes) : Bool × Pointer :=
  if p.cNil then (false, p)
  else
    match d.seek k with
    | some e => (decide (e.1 = k), { p with pos := some e.1, key := e.1, val := e.2 })
    | none => (decide (([] : Bytes) = k), { p with pos := none, key := [], val := [] })

/-- `pointer.Get` over the always-miss variant. -/
def Pointer.getMiss (p : Pointer) (d : Coll) (k : Bytes) : Bytes × Bool × Pointer :=
  let r := p.moveMiss d k
  (if r.1 then r.2.val else [], r.1, r.2)

/-- `pointer.Delete` over the always-miss variant. -/
def Pointer.delMiss (p : Pointer) (d : Coll) (k : Bytes) : Except Err Unit × Pointer × Coll :=
  let r := p.moveMiss d k
  if r.1 then
    match r.2.pos with
    | some pk => (.ok (), r.2, d.del pk)
    | none => (.error .crash, r.2, d)
  else (.ok (), r.2, d)

/-- `Cursor.Data` over the always-miss variant. -/
def Cursor.dataMiss (c : Cursor) (db : DB) : Except Err Bytes × Cursor :=
  let r := c.dp.getMiss (dataC db) c.key
  let c1 := { c with dp := r.2.2 }
  if r.2.1 then
    if Value.IsValid r.1 then (.ok (Value.Data r.1), c1)
    else (.error .invalidValue, c1)
  else (.error .invalidKey, c1)

/-- `Cursor.Delete` over the always-miss variant. -/
def Cursor.delMiss (c : Cursor) (db : DB) : Except Err Unit × Cursor × DB :=
  let r := c.dp.delMiss (dataC db) c.key
  let db1 : DB := { db with data := db.data.map (fun _ => r.2.2) }
  let c1 := { c with dp := r.2.1 }
  match r.1 with
  | .error e => (.error e, c1, db1)
  | .ok _ =>
    if c.csNil then (.error .crash, c1, db1)
    else
      match c.csPos with
      | some sk => (.ok (), c1, { db1 with seqb := db1.seqb.map (fun bs => bs.del sk) })
      | none => (.error .crash, c1, db1)

/-- The cache is consistent with the data collection: either untouched
(fresh), or caching exactly what the store holds at the cached position.
Holds for a fresh pointer and is preserved by `move` as long as the data
index is not mutated in between. -/
def CacheOk (p : Pointer) (d : Coll) : Prop :=
  (p.pos = none ∧ p.key = [] ∧ p.val = []) ∨
  (p.pos = some p.key ∧ d.get p.key = some p.val)

theorem cacheOk_fresh (db : DB) (d : Coll) : CacheOk (db.cursor).dp d :=
  Or.inl ⟨rfl, rfl, rfl⟩

/-- With a consistent cache and a non-empty key (bolt never stores empty
keys), the cached `move` computes exactly the always-miss `move`. -/
theorem move_eq_moveMiss {p : Pointer} {d : Coll} {k : Bytes}
    (hs : SortedL d.entries) (hc : CacheOk p d) (hk : k ≠ []) :
    p.move d k = p.moveMiss d k := by
  rw [Pointer.move, Pointer.moveMiss]
  by_cases hn : p.cNil = true
  · rw [if_pos hn, if_pos hn]
  · rw [if_neg hn, if_neg hn]
    by_cases hhit : p.key = k
    · rw [if_pos hhit]
      rcases hc with ⟨_, hkey, _⟩ | ⟨hpos, hget⟩
      · exact absurd (hkey.symm.trans hhit) (Ne.symm hk)
      · rw [hhit] at hget hpos
        rw [show d.seek k = some (k, p.val) from seekL_of_lookup hs hget]
        simp only [decide_eq_true_eq]
        refine Prod.ext ?_ ?_
        · simp
        · show p = { p with pos := some k, key := k, val := p.val }
          cases p
          simp only at hpos hhit
          subst hhit
          rw [hpos]
    · rw [if_neg hhit]

/-- `move` preserves cache consistency while the data index is unchanged. -/
theorem cacheOk_move {p : Pointer} {d : Coll} (k : Bytes)
    (hs : SortedL d.entries) (hc : CacheOk p d) :
    CacheOk (p.move d k).2 d := by
  rw [Pointer.move]
  by_cases hn : p.cNil = true
  · rw [if_pos hn]
    exact hc
  · rw [if_neg hn]
    by_cases hhit : p.key = k
    · rw [if_pos hhit]
      exact hc
    · rw [if_neg hhit]
      rcases hd : d.seek k with _ | e
      · exact Or.inl ⟨rfl, rfl, rfl⟩
      · right
        refine ⟨rfl, ?_⟩
        show d.get e.1 = some e.2
        exact lookupL_eq_some_of_mem hs (by simpa using seekL_mem hd)

/-- C9: the CachedPointer is purely a performance optimization — with a
consistent cache, an unmutated data index, and a non-empty key (bolt never
stores empty keys), replacing it by the always-miss variant yields the
same `(value, found)` result from resolve, the same delete behaviour, the
same `Cursor.Data()` and `Cursor.Delete()` behaviour, and the cache stays
consistent. -/
theorem C9_cached_pointer_equiv (d : Coll) (p : Pointer) (k : Bytes)
    (hs : SortedL d.entries) (hc : CacheOk p d) (hk : k ≠ []) :
    Pointer.get p d k = Pointer.getMiss p d k ∧
    Pointer.del p d k = Pointer.delMiss p d k ∧
    CacheOk (Pointer.move p d k).2 d ∧
    (∀ (c : Cursor) (db : DB), dataC db = d → c.dp = p → c.key = k →
      c.data db = c.dataMiss db ∧ c.del db = c.delMiss db) := by
  have hmv := move_eq_moveMiss hs hc hk
  refine ⟨?_, ?_, cacheOk_move k hs hc, ?_⟩
  · rw [Pointer.get, Pointer.getMiss, hmv]
  · rw [Pointer.del, Pointer.delMiss, hmv]
  · intro c db hd hdp hkey
    constructor
    · rw [Cursor.data, Cursor.dataMiss, hd, hdp, hkey,
        Pointer.get, Pointer.getMiss, hmv]
    · rw [Cursor.del, Cursor.delMiss, hd, hdp, hkey,
        Pointer.del, Pointer.delMiss, hmv]

/-- C9 witness: the equivalence at a concrete one-entry data index with a
fresh pointer. -/
theorem C9_witness :
    Pointer.get (DB.cursor dbW).dp (dataC dbW) [120]
      = Pointer.getMiss (DB.cursor dbW).dp (dataC dbW) [120] ∧
    Pointer.del (DB.cursor dbW).dp (dataC dbW) [120]
      = Pointer.delMiss (DB.cursor dbW).dp (dataC dbW) [120] ∧
    CacheOk (Pointer.move (DB.cursor dbW).dp (dataC dbW) [120]).2 (dataC dbW) ∧
    (∀ (c : Cursor) (db : DB), dataC db = dataC dbW →
      c.dp = (DB.cursor dbW).dp → c.key = [120] →
      c.data db = c.dataMiss db ∧ c.del db = c.delMiss db) :=
  C9_cached_pointer_equiv (dataC dbW) (DB.cursor dbW).dp [120]
    inv_dbW.2.1 (cacheOk_fresh dbW (dataC dbW)) (by decide)

/-- The forward walk from a state positioned at the head of the remaining
suffix `l2` of the sorted seq index emits exactly `l2`, decoded. -/
theorem fwdAux_suffix (db : DB)
    (hsorted : SortedL (seqC db).entries)
    (h8 : ∀ e ∈ (seqC db).entries, e.1.length = 8) :
    ∀ (l2 l1 : List Entry) (fuel : Nat) (st : Bool × Cursor),
    (seqC db).entries = l1 ++ l2 →
    l2.length ≤ fuel →
    (l2 = [] → st.1 = false) →
    (∀ e l2', l2 = e :: l2' → st.1 = true ∧ st.2.csNil = false ∧
      st.2.csPos = some e.1 ∧ st.2.seq = Value.Seq e.1 ∧ st.2.key = e.2) →
    fwdAux db fuel st = l2.map (fun e => (Value.Seq e.1, e.2)) := by
  intro l2
  induction l2 with
  | nil =>
    intro l1 fuel st _ _ hemp _
    have hf : st.1 = false := hemp rfl
    cases fuel with
    | zero => rfl
    | succ f =>
      rw [fwdAux, if_neg (by rw [hf]; simp)]
      rfl
  | cons e l2' ih =>
    intro l1 fuel st hsplit hfuel _ hcons
    obtain ⟨hok, hcsnil, hpos, hseq, hkey⟩ := hcons e l2' rfl
    cases fuel with
    | zero =>
      exact absurd hfuel (by simp)
    | succ f =>
      rw [fwdAux, if_pos hok, hseq, hkey]
      show _ :: fwdAux db f (st.2.next db) = _ :: l2'.map _
      congr 1
      have hnext : nextL e.1 (seqC db).entries = l2'.head? := by
        rw [hsplit]
        exact nextL_split (by rw [← hsplit]; exact hsorted)
      apply ih (l1 ++ [e]) f (st.2.next db) (by rw [hsplit]; simp)
        (by simp only [List.length_cons] at hfuel; omega)
      · -- l2' exhausted: the next call returns false
        intro hl2'
        rw [hl2'] at hnext
        show (st.2.next db).1 = false
        rw [Cursor.next, if_neg (by rw [hcsnil]; simp)]
        simp only [hpos, hnext]
        rfl
      · -- l2' continues: the next call lands on its head
        intro f2 rest hl2'
        rw [hl2'] at hnext
        have hmem2 : f2 ∈ (seqC db).entries := by
          rw [hsplit, hl2']
          simp
        have hval : Value.IsValid f2.1 = true :=
          isValid_iff.mpr (le_of_eq (h8 f2 hmem2).symm)
        have hsync : st.2.next db = (true, stepCursor st.2 f2) := by
          rw [Cursor.next, if_neg (by rw [hcsnil]; simp)]
          simp only [hpos, hnext, List.head?_cons, Option.map_some, Cursor.sync,
            if_pos hval]
          rfl
        rw [hsync]
        exact ⟨rfl, by simpa [stepCursor] using hcsnil, rfl, rfl, rfl⟩

/-- The backward walk from a state positioned at the last entry of the
prefix `l1` of the sorted seq index emits exactly `l1` reversed, decoded. -/
theorem bwdAux_prefix (db : DB)
    (hsorted : SortedL (seqC db).entries)
    (h8 : ∀ e ∈ (seqC db).entries, e.1.length = 8) :
    ∀ (l1 l2 : List Entry) (fuel : Nat) (st : Bool × Cursor),
    (seqC db).entries = l1 ++ l2 →
    l1.length ≤ fuel →
    (l1 = [] → st.1 = false) →
    (∀ l1' e, l1 = l1' ++ [e] → st.1 = true ∧ st.2.csNil = false ∧
      st.2.csPos = some e.1 ∧ st.2.seq = Value.Seq e.1 ∧ st.2.key = e.2) →
    bwdAux db fuel st = (l1.map (fun e => (Value.Seq e.1, e.2))).reverse := by
  intro l1
  induction l1 using List.reverseRecOn with
  | nil =>
    intro l2 fuel st _ _ hemp _
    have hf : st.1 = false := hemp rfl
    cases fuel with
    | zero => rfl
    | succ f =>
      rw [bwdAux, if_neg (by rw [hf]; simp)]
      rfl
  | append_singleton l1' e ih =>
    intro l2 fuel st hsplit hfuel _ hsnoc
    obtain ⟨hok, hcsnil, hpos, hseq, hkey⟩ := hsnoc l1' e rfl
    cases fuel with
    | zero =>
      exact absurd hfuel (by simp)
    | succ f =>
      rw [bwdAux, if_pos hok, hseq, hkey]
      rw [List.map_append, List.reverse_append]
      show _ :: bwdAux db f (st.2.prev db) = _ :: (l1'.map _).reverse
      congr 1
      have hsplit' : (seqC db).entries = l1' ++ e :: l2 := by
        rw [hsplit]
        simp
      have hprev : prevL e.1 (seqC db).entries = l1'.getLast? := by
        rw [hsplit']
        exact prevL_split (by rw [← hsplit']; exact hsorted)
      apply ih (e :: l2) f (st.2.prev db) hsplit'
        (by simp only [List.length_append, List.length_cons, List.length_nil] at hfuel; omega)
      · -- prefix exhausted: the prev call returns false
        intro hl1'
        rw [hl1'] at hprev
        show (st.2.prev db).1 = false
        rw [Cursor.prev, if_neg (by rw [hcsnil]; simp)]
        simp only [hpos, hprev]
        rfl
      · -- prefix continues: the prev call lands on its last entry
        intro l1'' e2 hl1'
        rw [hl1', List.getLast?_concat] at hprev
        have hmem2 : e2 ∈ (seqC db).entries := by
          rw [hsplit, hl1']
          simp
        have hval : Value.IsValid e2.1 = true :=
          isValid_iff.mpr (le_of_eq (h8 e2 hmem2).symm)
        have hsync : st.2.prev db = (true, stepCursor st.2 e2) := by
          rw [Cursor.prev, if_neg (by rw [hcsnil]; simp)]
          simp only [hpos, hprev, Option.map_some, Cursor.sync, if_pos hval]
          rfl
        rw [hsync]
        exact ⟨rfl, by simpa [stepCursor] using hcsnil, rfl, rfl, rfl⟩

/-- The full forward traversal decodes the seq index in order. -/
theorem fwdTraverse_eq {db : DB} (hinv : Inv db) :
    fwdTraverse db = (seqC db).entries.map (fun e => (Value.Seq e.1, e.2)) := by
  have h8 : ∀ e ∈ (seqC db).entries, e.1.length = 8 :=
    fun e he => (hinv.2.2.2.1.2 e he).1
  rw [fwdTraverse]
  apply fwdAux_suffix db hinv.2.2.1 h8 (seqC db).entries [] _ _ rfl (le_refl _)
  · intro hnil
    rw [Cursor.first]
    by_cases hn : (db.cursor).csNil = true
    · rw [if_pos hn]
    · rw [if_neg hn]
      simp only [hnil, List.head?_nil]
      rfl
  · intro e rest hcons
    have hmem : e ∈ (seqC db).entries := by
      rw [hcons]
      exact List.mem_cons_self _ _
    have hval : Value.IsValid e.1 = true :=
      isValid_iff.mpr (le_of_eq (h8 e hmem).symm)
    have hcs : (db.cursor).csNil = false := by
      rcases hq : db.seqb with _ | bs
      · rw [show seqC db = emptyColl from by simp [seqC, hq]] at hcons
        simp [emptyColl] at hcons
      · simp [DB.cursor, hq]
    have hfst : (db.cursor).first db = (true, stepCursor db.cursor e) := by
      rw [Cursor.first, if_neg (by rw [hcs]; simp)]
      simp only [hcons, List.head?_cons, Option.map_some, Cursor.sync, if_pos hval]
      rfl
    rw [hfst]
    exact ⟨rfl, by simpa [stepCursor] using hcs, rfl, rfl, rfl⟩

/-- The full backward traversal decodes the seq index in reverse order. -/
theorem bwdTraverse_eq {db : DB} (hinv : Inv db) :
    bwdTraverse db
      = ((seqC db).entries.map (fun e => (Value.Seq e.1, e.2))).reverse := by
  have h8 : ∀ e ∈ (seqC db).entries, e.1.length = 8 :=
    fun e he => (hinv.2.2.2.1.2 e he).1
  rw [bwdTraverse]
  apply bwdAux_prefix db hinv.2.2.1 h8 (seqC db).entries [] _ _ (by simp)
    (le_refl _)
  · intro hnil
    rw [Cursor.last]
    by_cases hn : (db.cursor).csNil = true
    · rw [if_pos hn]
    · rw [if_neg hn]
      simp only [hnil, List.getLast?_nil]
      rfl
  · intro l1' e hsnoc
    have hmem : e ∈ (seqC db).entries := by
      rw [hsnoc]
      simp
    have hval : Value.IsValid e.1 = true :=
      isValid_iff.mpr (le_of_eq (h8 e hmem).symm)
    have hcs : (db.cursor).csNil = false := by
      rcases hq : db.seqb with _ | bs
      · rw [show seqC db = emptyColl from by simp [seqC, hq]] at hsnoc
        simp [emptyColl] at hsnoc
      · simp [DB.cursor, hq]
    have hlst : (db.cursor).last db = (true, stepCursor db.cursor e) := by
      rw [Cursor.last, if_neg (by rw [hcs]; simp)]
      simp only [hsnoc, List.getLast?_concat, Option.map_some, Cursor.sync,
        if_pos hval]
      rfl
    rw [hlst]
    exact ⟨rfl, by simpa [stepCursor] using hcs, rfl, rfl, rfl⟩

/-- Under the invariant the two indices hold the same number of live
entries. -/
theorem data_seq_length {db : DB} (hinv : Inv db) :
    (dataC db).entries.length = (seqC db).entries.length := by
  obtain ⟨hiff, hsd, hss, ⟨hm1, hm2⟩, hb⟩ := hinv
  have hne_of_blt : ∀ (x y : Entry), blt x.1 y.1 = true → x ≠ y := by
    intro x y hb heq
    rw [heq, blt_irrefl] at hb
    cases hb
  have hdnodup : (dataC db).entries.Nodup := hsd.imp (by
    intro a b hab
    exact hne_of_blt a b hab)
  have hsnodup : (seqC db).entries.Nodup := hss.imp (by
    intro a b hab
    exact hne_of_blt a b hab)
  have hfnodup : ((dataC db).entries.map
      (fun e => ((Value.seqBytes e.2, e.1) : Entry))).Nodup := by
    apply List.Nodup.map_on ?_ hdnodup
    intro x hx y hy hf
    have h1 : x.1 = y.1 := (Prod.mk.injEq _ _ _ _).mp hf |>.2
    have hgx := lookupL_eq_some_of_mem hsd (by rw [show (x.1, x.2) = x from rfl]; exact hx)
    have hgy := lookupL_eq_some_of_mem hsd (by rw [show (y.1, y.2) = y from rfl]; exact hy)
    rw [h1] at hgx
    have h2 : x.2 = y.2 := lookup_unique hgx hgy
    exact Prod.ext h1 h2
  have hperm : List.Perm ((dataC db).entries.map
      (fun e => ((Value.seqBytes e.2, e.1) : Entry))) (seqC db).entries := by
    rw [List.perm_ext_iff_of_nodup hfnodup hsnodup]
    intro a
    constructor
    · intro ha
      obtain ⟨e, he, hfe⟩ := List.mem_map.mp ha
      obtain ⟨-, -, hsget⟩ := hm1 e he
      rw [← hfe]
      exact lookupL_mem hsget
    · intro ha
      obtain ⟨hlen8, v, hgv, hsv⟩ := hm2 a ha
      apply List.mem_map.mpr
      refine ⟨(a.2, v), lookupL_mem hgv, ?_⟩
      show (Value.seqBytes v, a.2) = a
      rw [hsv]
  calc (dataC db).entries.length
      = ((dataC db).entries.map
          (fun e => ((Value.seqBytes e.2, e.1) : Entry))).length := by
        rw [List.length_map]
    _ = (seqC db).entries.length := hperm.length_eq

/-- C6: starting from `First()` and repeatedly calling `Next()`, the
cursor visits every live entry exactly once in ascending sequence-number
order (big-endian keys make byte order equal numeric order); `Last()` with
repeated `Prev()` visits the same entries in descending order; both
traversals visit the same number of entries, equal to the number of live
keys. -/
theorem C6_cursor_traversal (db : DB) (hinv : Inv db) :
    fwdTraverse db = (seqC db).entries.map (fun e => (Value.Seq e.1, e.2)) ∧
    bwdTraverse db = (fwdTraverse db).reverse ∧
    List.Pairwise (fun a b => a.1 < b.1) (fwdTraverse db) ∧
    (fwdTraverse db).length = (dataC db).entries.length ∧
    (bwdTraverse db).length = (fwdTraverse db).length := by
  have h8 : ∀ e ∈ (seqC db).entries, e.1.length = 8 :=
    fun e he => (hinv.2.2.2.1.2 e he).1
  have hf := fwdTraverse_eq hinv
  have hbw := bwdTraverse_eq hinv
  refine ⟨hf, by rw [hbw, hf], ?_, ?_, ?_⟩
  · rw [hf]
    rw [List.pairwise_map]
    apply List.Pairwise.imp_of_mem ?_ hinv.2.2.1
    intro a b ha hb hab
    show Value.Seq a.1 < Value.Seq b.1
    rw [Value.Seq, Value.Seq]
    exact decodeSeq_lt_of_blt (h8 a ha) (h8 b hb) hab
  · rw [hf, List.length_map, data_seq_length hinv]
  · rw [hbw, hf]
    simp

/-- C6 witness: the traversal properties at a concrete two-entry bucket. -/
theorem C6_witness :
    fwdTraverse dbW = (seqC dbW).entries.map (fun e => (Value.Seq e.1, e.2)) ∧
    bwdTraverse dbW = (fwdTraverse dbW).reverse ∧
    List.Pairwise (fun a b => a.1 < b.1) (fwdTraverse dbW) ∧
    (fwdTraverse dbW).length = (dataC dbW).entries.length ∧
    (bwdTraverse dbW).length = (fwdTraverse dbW).length :=
  C6_cursor_traversal dbW inv_dbW

/-- C10 witness: concrete buckets without a "seq" collection, with and
without a "data" collection. -/
theorem C10_witness :
    ((∀ s : Nat, ((DB.empty.cursor).seek DB.empty s).1 = false ∧
        ((DB.empty.cursor).seek DB.empty s).2.err = none) ∧
      ((DB.empty.cursor).first DB.empty).1 = false ∧
      ((DB.empty.cursor).first DB.empty).2.err = none ∧
      ((DB.empty.cursor).last DB.empty).1 = false ∧
      ((DB.empty.cursor).last DB.empty).2.err = none ∧
      ((DB.empty.cursor).next DB.empty).1 = false ∧
      ((DB.empty.cursor).next DB.empty).2.err = none ∧
      ((DB.empty.cursor).prev DB.empty).1 = false ∧
      ((DB.empty.cursor).prev DB.empty).2.err = none ∧
      ((DB.empty.cursor).del DB.empty).1 = .error .crash : Prop) ∧
    (((⟨some ⟨[([7], newValue 1 [])], 0⟩, none⟩ : DB).cursor.del
        ⟨some ⟨[([7], newValue 1 [])], 0⟩, none⟩).1 = .error .crash : Prop) :=
  ⟨C10_nil_seq_cursor DB.empty rfl,
   (C10_nil_seq_cursor ⟨some ⟨[([7], newValue 1 [])], 0⟩, none⟩ rfl).2.2.2.2.2.2.2.2.2⟩

end Boltseq
